import Mathlib

/-!
Verification of the board-state model and compact codec of a Sudoku web
application (Rust sources: `util.rs`, `sudoku_data.rs`, `actions.rs`).

Strings are embedded as `List Char`; the mutable accumulators of the Rust
functions become explicit parameters of structurally recursive functions.
-/

/-! ## Codec (`util.rs`) -/

/-- Embedding of `get_count` (util.rs:86-92): maps a run-length letter token to
its 0-based index, `none` for any non-letter character. -/
def get_count (c : Char) : Option Nat :=
  if 'a' ≤ c ∧ c ≤ 'z' then some (c.toNat - 'a'.toNat)
  else if 'A' ≤ c ∧ c ≤ 'Z' then some (c.toNat - 'A'.toNat + 26)
  else none

/-- Embedding of `get_letter` (util.rs:94-101): maps an index to a run-length
letter token, lowercase first, then uppercase. -/
def get_letter (idx : Nat) : Option Char :=
  if idx ≤ 25 then some (Char.ofNat ('a'.toNat + idx))
  else if idx ≤ 52 then some (Char.ofNat ('A'.toNat + idx - 26))
  else none

/-- Embedding of `push_if_full` (util.rs:55-62): when the running count reaches
52 the pending run is flushed to the output and the count restarts at 1. -/
def push_if_full (compressed : List Char) (c : Char) (count : Nat) :
    Option (List Char × Nat) :=
  if count = 52 then
    (get_letter (count - 1)).map (fun l => (compressed ++ [c, l], 1))
  else
    some (compressed, count + 1)

/-- Embedding of `push_repeated` (util.rs:64-71): emits the pending run as a
bare character (count 1) or character plus letter token (count ≥ 2). -/
def push_repeated (compressed : List Char) (c : Char) (count : Nat) :
    Option (List Char) :=
  if count > 1 then
    (get_letter (count - 1)).map (fun l => compressed ++ [c, l])
  else
    some (compressed ++ [c])

/-- The loop of `compress_string` (util.rs:42-51), with the mutable state
(`compressed`, `last_char`, `count`) made explicit. -/
def compress_loop : List Char → List Char → Char → Nat → Option (List Char)
  | [], compressed, last, count => push_repeated compressed last count
  | c :: cs, compressed, last, count =>
    if c = last then
      match push_if_full compressed c count with
      | some (comp, cnt) => compress_loop cs comp c cnt
      | none => none
    else
      match push_repeated compressed last count with
      | some comp => compress_loop cs comp c 1
      | none => none

/-- Embedding of `compress_string` (util.rs:35-53).  The Rust code seeds
`last_char` with the first character and `count` with 0, then iterates over
all characters including the first. -/
def compress_string (s : List Char) : Option (List Char) :=
  match s with
  | [] => some []
  | c :: cs => compress_loop (c :: cs) [] c 0

/-- The loop of `decompress_string` (util.rs:73-84), with the growing output
string as an explicit accumulator.  A letter token pops the most recent
character (`none` when there is none) and appends `idx + 1` copies of it. -/
def decompress_loop : List Char → List Char → Option (List Char)
  | [], acc => some acc
  | c :: cs, acc =>
    match get_count c with
    | some idx =>
      match acc.getLast? with
      | some letter => decompress_loop cs (acc.dropLast ++ List.replicate (idx + 1) letter)
      | none => none
    | none => decompress_loop cs (acc ++ [c])

/-- Embedding of `decompress_string` (util.rs:73-84). -/
def decompress_string (s : List Char) : Option (List Char) :=
  decompress_loop s []

example : compress_string "111111112".toList = some "1h2".toList := by decide
example : compress_string "1....2".toList = some "1.d2".toList := by decide
example : decompress_string "1.d2".toList = some "1....2".toList := by decide
example : decompress_string "d".toList = none := by decide
example : decompress_string "1bb".toList = some "111".toList := by decide

/-! ### Codec lemmas -/

/-- Every index in `0..=51` has a letter, and `get_count` inverts `get_letter`. -/
lemma get_letter_round (idx : Nat) (h : idx ≤ 51) :
    ∃ l, get_letter idx = some l ∧ get_count l = some idx := by
  interval_cases idx <;> exact ⟨_, rfl, by decide⟩

lemma get_letter_total (idx : Nat) (h : idx ≤ 52) : ∃ l, get_letter idx = some l := by
  unfold get_letter
  repeat' split
  all_goals first
  | exact ⟨_, rfl⟩
  | omega

lemma compress_loop_nil (comp : List Char) (last : Char) (count : Nat) :
    compress_loop [] comp last count = push_repeated comp last count := rfl

lemma compress_loop_cons_same (c : Char) (cs comp : List Char) (count : Nat)
    (h52 : count ≠ 52) :
    compress_loop (c :: cs) comp c count = compress_loop cs comp c (count + 1) := by
  simp [compress_loop, push_if_full, h52]

lemma compress_loop_cons_flush (c : Char) (cs comp : List Char) :
    compress_loop (c :: cs) comp c 52 = compress_loop cs (comp ++ [c, 'Z']) c 1 := by
  simp [compress_loop, push_if_full, show get_letter 51 = some 'Z' by decide]

lemma compress_loop_cons_ne_some {comp2 : List Char} (c last : Char) (cs comp : List Char)
    (count : Nat) (hne : c ≠ last) (htok : push_repeated comp last count = some comp2) :
    compress_loop (c :: cs) comp last count = compress_loop cs comp2 c 1 := by
  simp [compress_loop, hne, htok]

lemma compress_loop_cons_ne_none (c last : Char) (cs comp : List Char)
    (count : Nat) (hne : c ≠ last) (htok : push_repeated comp last count = none) :
    compress_loop (c :: cs) comp last count = none := by
  simp [compress_loop, hne, htok]

lemma push_repeated_gt (comp : List Char) (c l : Char) (count : Nat)
    (h : count > 1) (hl : get_letter (count - 1) = some l) :
    push_repeated comp c count = some (comp ++ [c, l]) := by
  simp [push_repeated, h, hl]

lemma push_repeated_gt_none (comp : List Char) (c : Char) (count : Nat)
    (h : count > 1) (hl : get_letter (count - 1) = none) :
    push_repeated comp c count = none := by
  simp [push_repeated, h, hl]

lemma push_repeated_le (comp : List Char) (c : Char) (count : Nat) (h : ¬count > 1) :
    push_repeated comp c count = some (comp ++ [c]) := by
  simp [push_repeated, h]

lemma decompress_loop_push {c : Char} (cs acc : List Char) (h : get_count c = none) :
    decompress_loop (c :: cs) acc = decompress_loop cs (acc ++ [c]) := by
  simp [decompress_loop, h]

lemma decompress_loop_letter {l : Char} {idx : Nat} (cs acc : List Char) (x : Char)
    (h : get_count l = some idx) :
    decompress_loop (l :: cs) (acc ++ [x]) =
      decompress_loop cs (acc ++ List.replicate (idx + 1) x) := by
  simp [decompress_loop, h, List.getLast?_concat, List.dropLast_concat]

/-- The output accumulator of `compress_loop` is only ever appended to. -/
lemma compress_loop_append :
    ∀ (cs comp : List Char) (last : Char) (count : Nat),
      compress_loop cs comp last count =
        (compress_loop cs [] last count).map (fun t => comp ++ t) := by
  intro cs
  induction cs with
  | nil =>
    intro comp last count
    rw [compress_loop_nil, compress_loop_nil]
    unfold push_repeated
    split
    · cases get_letter (count - 1) <;> simp
    · simp
  | cons c cs ih =>
    intro comp last count
    by_cases hceq : c = last
    · subst hceq
      by_cases h52 : count = 52
      · subst h52
        rw [compress_loop_cons_flush, compress_loop_cons_flush,
          ih (comp ++ [c, 'Z']) c 1, ih ([] ++ [c, 'Z']) c 1]
        cases compress_loop cs [] c 1 <;> simp
      · rw [compress_loop_cons_same c cs comp count h52,
          compress_loop_cons_same c cs [] count h52]
        exact ih comp c (count + 1)
    · by_cases hgt : count > 1
      · cases hl : get_letter (count - 1) with
        | none =>
          rw [compress_loop_cons_ne_none c last cs comp count hceq
              (push_repeated_gt_none comp last count hgt hl),
            compress_loop_cons_ne_none c last cs [] count hceq
              (push_repeated_gt_none [] last count hgt hl)]
          rfl
        | some l =>
          rw [compress_loop_cons_ne_some c last cs comp count hceq
              (push_repeated_gt comp last l count hgt hl),
            compress_loop_cons_ne_some c last cs [] count hceq
              (push_repeated_gt [] last l count hgt hl),
            ih (comp ++ [last, l]) c 1, ih ([] ++ [last, l]) c 1]
          cases compress_loop cs [] c 1 <;> simp
      · rw [compress_loop_cons_ne_some c last cs comp count hceq
            (push_repeated_le comp last count hgt),
          compress_loop_cons_ne_some c last cs [] count hceq
            (push_repeated_le [] last count hgt),
          ih (comp ++ [last]) c 1, ih ([] ++ [last]) c 1]
        cases compress_loop cs [] c 1 <;> simp

/-- A flushed run token `<char><letter>` (or a bare `<char>` for a run of 1)
decompresses by appending `count` copies of the character. -/
lemma push_repeated_expand (x : Char) (count : Nat) (hx : get_count x = none)
    (h1 : 1 ≤ count) (h2 : count ≤ 52) :
    ∃ tok, push_repeated [] x count = some tok ∧
      ∀ (cs acc : List Char),
        decompress_loop (tok ++ cs) acc =
          decompress_loop cs (acc ++ List.replicate count x) := by
  by_cases hgt : count > 1
  · obtain ⟨l, hl, hcl⟩ := get_letter_round (count - 1) (by omega)
    refine ⟨[x, l], by simp [push_repeated, hgt, hl], ?_⟩
    intro cs acc
    rw [show ([x, l] ++ cs) = x :: l :: cs from rfl, decompress_loop_push _ _ hx,
      decompress_loop_letter _ _ _ hcl]
    rw [show count - 1 + 1 = count by omega]
  · have hc1 : count = 1 := by omega
    subst hc1
    refine ⟨[x], by simp [push_repeated], ?_⟩
    intro cs acc
    rw [show ([x] ++ cs) = x :: cs from rfl, decompress_loop_push _ _ hx]
    simp

/-- Key round-trip invariant: from any loop state with a pending run of
`count` copies of a non-letter `last` and a non-letter remainder `cs`, the
loop succeeds and its output decompresses back to the pending run plus `cs`. -/
lemma compress_loop_round :
    ∀ (cs : List Char) (last : Char) (count : Nat),
      1 ≤ count → count ≤ 52 → get_count last = none →
      (∀ c ∈ cs, get_count c = none) →
      ∃ out, compress_loop cs [] last count = some out ∧
        ∀ acc, decompress_loop out acc =
          some (acc ++ List.replicate count last ++ cs) := by
  intro cs
  induction cs with
  | nil =>
    intro last count h1 h2 hlast _
    obtain ⟨tok, htok, hexp⟩ := push_repeated_expand last count hlast h1 h2
    refine ⟨tok, htok, ?_⟩
    intro acc
    have := hexp [] acc
    rw [List.append_nil] at this
    rw [this]
    simp [decompress_loop]
  | cons c cs ih =>
    intro last count h1 h2 hlast hcs
    have hc : get_count c = none := hcs c (List.mem_cons_self c cs)
    have hcs' : ∀ a ∈ cs, get_count a = none := fun a ha => hcs a (List.mem_cons_of_mem c ha)
    by_cases hceq : c = last
    · subst hceq
      by_cases h52 : count = 52
      · subst h52
        obtain ⟨out', hout', hdec'⟩ := ih c 1 (by omega) (by omega) hc hcs'
        refine ⟨[c, 'Z'] ++ out', ?_, ?_⟩
        · rw [compress_loop_cons_flush, compress_loop_append, hout']
          rfl
        · intro acc
          rw [show ([c, 'Z'] ++ out') = c :: 'Z' :: out' from rfl,
            decompress_loop_push _ _ hc,
            decompress_loop_letter _ _ _ (show get_count 'Z' = some 51 by decide),
            hdec' (acc ++ List.replicate (51 + 1) c)]
          simp [List.replicate_succ']
      · obtain ⟨out', hout', hdec'⟩ := ih c (count + 1) (by omega) (by omega) hc hcs'
        refine ⟨out', by rw [compress_loop_cons_same c cs [] count h52, hout'], ?_⟩
        intro acc
        rw [hdec' acc]
        simp [List.replicate_succ', List.append_assoc]
    · obtain ⟨tok, htok, hexp⟩ := push_repeated_expand last count hlast h1 h2
      obtain ⟨out', hout', hdec'⟩ := ih c 1 (by omega) (by omega) hc hcs'
      refine ⟨tok ++ out', ?_, ?_⟩
      · rw [compress_loop_cons_ne_some c last cs [] count hceq htok,
          compress_loop_append, hout']
        rfl
      · intro acc
        rw [hexp out' acc, hdec' (acc ++ List.replicate count last)]
        simp

/-- Characters of the puzzle alphabet (digits and `'.'`) are not letter tokens. -/
lemma digit_dot_not_letter (c : Char) (h : c.isDigit = true ∨ c = '.') :
    get_count c = none := by
  rcases h with h | h
  · have h' : '0' ≤ c ∧ c ≤ '9' := by
      simpa [Char.isDigit, Bool.and_eq_true, decide_eq_true_eq] using h
    unfold get_count
    rw [if_neg, if_neg]
    · rintro ⟨h1, -⟩
      exact absurd (le_trans h1 h'.2) (by decide)
    · rintro ⟨h1, -⟩
      exact absurd (le_trans h1 h'.2) (by decide)
  · subst h
    decide

lemma compress_loop_total :
    ∀ (cs comp : List Char) (last : Char) (count : Nat), count ≤ 52 →
      ∃ out, compress_loop cs comp last count = some out := by
  intro cs
  induction cs with
  | nil =>
    intro comp last count h
    rw [compress_loop_nil]
    by_cases hgt : count > 1
    · obtain ⟨l, hl⟩ := get_letter_total (count - 1) (by omega)
      exact ⟨_, push_repeated_gt comp last l count hgt hl⟩
    · exact ⟨_, push_repeated_le comp last count hgt⟩
  | cons c cs ih =>
    intro comp last count h
    by_cases hceq : c = last
    · subst hceq
      by_cases h52 : count = 52
      · subst h52
        rw [compress_loop_cons_flush]
        exact ih _ c 1 (by omega)
      · rw [compress_loop_cons_same c cs comp count h52]
        exact ih comp c (count + 1) (by omega)
    · by_cases hgt : count > 1
      · obtain ⟨l, hl⟩ := get_letter_total (count - 1) (by omega)
        rw [compress_loop_cons_ne_some c last cs comp count hceq
          (push_repeated_gt comp last l count hgt hl)]
        exact ih _ c 1 (by omega)
      · rw [compress_loop_cons_ne_some c last cs comp count hceq
          (push_repeated_le comp last count hgt)]
        exact ih _ c 1 (by omega)

lemma decompress_loop_isSome :
    ∀ (s acc : List Char), acc ≠ [] → ∃ t, decompress_loop s acc = some t := by
  intro s
  induction s with
  | nil => exact fun acc _ => ⟨acc, rfl⟩
  | cons c cs ih =>
    intro acc hacc
    cases hc : get_count c with
    | none =>
      rw [decompress_loop_push cs acc hc]
      exact ih (acc ++ [c]) (by simp)
    | some idx =>
      obtain ⟨x, hx⟩ := Option.isSome_iff_exists.mp (List.getLast?_isSome.mpr hacc)
      have : decompress_loop (c :: cs) acc =
          decompress_loop cs (acc.dropLast ++ List.replicate (idx + 1) x) := by
        simp [decompress_loop, hc, hx]
      rw [this]
      exact ih _ (by simp [List.replicate_succ])

/-- C1: Codec round-trip — for every string over the alphabet `{'0'-'9', '.'}`
(including arbitrarily long runs, chunked at 52), compression succeeds and
decompression restores the original string exactly. -/
theorem C1_codec_roundtrip (s : List Char)
    (h : ∀ c ∈ s, c.isDigit = true ∨ c = '.') :
    ∃ t, compress_string s = some t ∧ decompress_string t = some s := by
  cases s with
  | nil => exact ⟨[], rfl, rfl⟩
  | cons c cs =>
    have hc : get_count c = none :=
      digit_dot_not_letter c (h c (List.mem_cons_self c cs))
    have hcs : ∀ a ∈ cs, get_count a = none :=
      fun a ha => digit_dot_not_letter a (h a (List.mem_cons_of_mem c ha))
    obtain ⟨out, hout, hdec⟩ := compress_loop_round cs c 1 (by omega) (by omega) hc hcs
    refine ⟨out, ?_, ?_⟩
    · show compress_loop (c :: cs) [] c 0 = some out
      rw [compress_loop_cons_same c cs [] 0 (by omega), hout]
    · show decompress_loop out [] = some (c :: cs)
      rw [hdec []]
      simp

/-- Witness for C1 at the concrete puzzle fragment `"1....2"`. -/
theorem C1_codec_roundtrip_witness :
    (∀ c ∈ ['1', '.', '.', '.', '.', '2'], c.isDigit = true ∨ c = '.') ∧
    ∃ t, compress_string ['1', '.', '.', '.', '.', '2'] = some t ∧
      decompress_string t = some ['1', '.', '.', '.', '.', '2'] :=
  ⟨by decide, C1_codec_roundtrip ['1', '.', '.', '.', '.', '2'] (by decide)⟩

/-- C6 counterexample: the claim asserts `decompress_string` returns `none`
whenever two letter tokens appear consecutively, but `"1bb"` contains two
consecutive letter tokens (`get_count 'b'` is a letter index) and decompresses
successfully to `"111"` — the first expansion leaves an anchor for the second. -/
theorem C6_counterexample :
    (get_count 'b').isSome = true ∧
    decompress_string ['1', 'b', 'b'] = some ['1', '1', '1'] := by decide

/-- C6 (amended): `decompress_string s = none` iff the first character of `s`
is a letter token — the only way a letter can find no preceding anchor.  In
particular a string starting with a letter fails, while a letter that is
preceded by any anchor (including the output of an earlier letter expansion)
succeeds. -/
theorem C6_decompress_none_iff (s : List Char) :
    decompress_string s = none ↔ ∃ c cs, s = c :: cs ∧ (get_count c).isSome := by
  cases s with
  | nil => simp [decompress_string, decompress_loop]
  | cons c cs =>
    cases hc : get_count c with
    | some idx =>
      have hnone : decompress_string (c :: cs) = none := by
        simp [decompress_string, decompress_loop, hc]
      rw [hnone]
      constructor
      · intro _
        exact ⟨c, cs, rfl, by simp [hc]⟩
      · intro _
        rfl
    | none =>
      have hsome : decompress_string (c :: cs) = decompress_loop cs [c] := by
        rw [decompress_string, decompress_loop_push cs [] hc]
        rfl
      obtain ⟨t, ht⟩ := decompress_loop_isSome cs [c] (by simp)
      constructor
      · intro hn
        rw [hsome, ht] at hn
        exact absurd hn (by simp)
      · rintro ⟨c', cs', heq, hs⟩
        obtain ⟨hc', -⟩ := List.cons.inj heq
        subst hc'
        rw [hc] at hs
        exact absurd hs (by simp)

lemma compress_replicate_le :
    ∀ (n count : Nat) (comp : List Char) (c : Char), 1 ≤ count → count + n ≤ 52 →
      compress_loop (List.replicate n c) comp c count =
        push_repeated comp c (count + n) := by
  intro n
  induction n with
  | zero =>
    intro count comp c _ _
    rw [List.replicate_zero, compress_loop_nil, Nat.add_zero]
  | succ n ih =>
    intro count comp c h1 h2
    rw [List.replicate_succ, compress_loop_cons_same c _ comp count (by omega),
      ih (count + 1) comp c (by omega) (by omega),
      show count + 1 + n = count + (n + 1) by omega]

lemma compress_replicate_flush :
    ∀ (n count : Nat) (comp : List Char) (c : Char), 1 ≤ count → count ≤ 52 →
      count + n = 53 →
      compress_loop (List.replicate n c) comp c count = some (comp ++ [c, 'Z', c]) := by
  intro n
  induction n with
  | zero =>
    intro count _ _ _ h2 h3
    omega
  | succ n ih =>
    intro count comp c h1 h2 h3
    rw [List.replicate_succ]
    by_cases h52 : count = 52
    · subst h52
      have hn : n = 0 := by omega
      subst hn
      rw [compress_loop_cons_flush, List.replicate_zero, compress_loop_nil,
        push_repeated_le _ _ _ (by omega)]
      simp
    · rw [compress_loop_cons_same c _ comp count h52,
        ih (count + 1) comp c (by omega) (by omega) (by omega)]

/-- C7: Run-length chunking boundary — a run of exactly 52 identical
characters compresses to `<char>'Z'` (the letter for index 51), and a run of
53 compresses to `<char>'Z'<char>`, restarting a fresh 1-length run at the
same character. -/
theorem C7_chunk_boundary (c : Char) :
    compress_string (List.replicate 52 c) = some [c, 'Z'] ∧
    compress_string (List.replicate 53 c) = some [c, 'Z', c] := by
  constructor
  · rw [show (52 : Nat) = 51 + 1 from rfl, List.replicate_succ]
    show compress_loop (c :: List.replicate 51 c) [] c 0 = some [c, 'Z']
    rw [compress_loop_cons_same c _ [] 0 (by omega),
      compress_replicate_le 51 1 [] c (by omega) (by omega),
      push_repeated_gt [] c 'Z' 52 (by omega) (by decide)]
    rfl
  · rw [show (53 : Nat) = 52 + 1 from rfl, List.replicate_succ]
    show compress_loop (c :: List.replicate 52 c) [] c 0 = some [c, 'Z', c]
    rw [compress_loop_cons_same c _ [] 0 (by omega),
      compress_replicate_flush 52 1 [] c (by omega) (by omega) (by omega)]
    rfl

/-- C8: Totality of compression — `compress_string` returns `some` for every
finite input string over any characters; the defensive `none` branch of the
run-length-to-letter mapping is unreachable because the chunking rule keeps
every emitted count within `1..=52`. -/
theorem C8_compress_total (s : List Char) : ∃ t, compress_string s = some t := by
  cases s with
  | nil => exact ⟨[], rfl⟩
  | cons c cs => exact compress_loop_total (c :: cs) [] c 0 (by omega)

/-! ## Board state model (`sudoku_data.rs`) -/

/-- Embedding of the `Cell` enum (sudoku_data.rs:23-53): the five per-cell
states, with `choices` as a boolean candidate set indexed by digit − 1. -/
inductive Cell where
  | Empty (choices : Fin 9 → Bool)
  | Value (value : Nat) (choices : Fin 9 → Bool)
  | FixedValue (value : Nat)
  | AnimatedValue (value : Nat) (choices : Fin 9 → Bool) (fade_delay_ms : Int)
      (animation : String)
  | Error (value : Nat) (choices : Fin 9 → Bool)
deriving DecidableEq

/-- Embedding of `SudokuData` (sudoku_data.rs:11-21): a 9×9 grid of cells,
`rows[i].cells[j]` becoming application to `i` then `j`. -/
abbrev SudokuData := Fin 9 → Fin 9 → Cell

/-- Embedding of `Cell::is_empty` (sudoku_data.rs:95-97). -/
def Cell.is_empty : Cell → Bool
  | .Empty _ => true
  | _ => false

/-- The digit held by a cell; 0 for `Empty` (mirrors the match arms of
`From<&SudokuData> for Sudoku`, sudoku_data.rs:100-119). -/
def cellValue : Cell → Nat
  | .Empty _ => 0
  | .Value v _ => v
  | .FixedValue v => v
  | .AnimatedValue v _ _ _ => v
  | .Error v _ => v

/-- Boolean test used by the candidate invariant: does the cell hold digit `d`
in one of the value-carrying states? -/
def holdsDigit (c : Cell) (d : Nat) : Bool :=
  match c with
  | .Empty _ => false
  | .Value v _ => v == d
  | .FixedValue v => v == d
  | .AnimatedValue v _ _ _ => v == d
  | .Error v _ => v == d

/-- Assignment `self.rows[row].cells[col] = cell`. -/
def writeCell (b : SudokuData) (row col : Fin 9) (cell : Cell) : SudokuData :=
  fun i j => if i = row ∧ j = col then cell else b i j

/-- Clearing `choices[(value - 1)]` as in `remove_choice`
(sudoku_data.rs:285-289).  The Rust index `value - 1` is a plain array index;
the embedding guards it with the `Fin 9` bound (all call sites that reach it
use digits in `1..=9`). -/
def removeChoiceFn (choices : Fin 9 → Bool) (value : Nat) : Fin 9 → Bool :=
  fun k => if k.val = value - 1 then false else choices k

/-- Embedding of `SudokuData::remove_choice` (sudoku_data.rs:285-289). -/
def SudokuData.remove_choice (b : SudokuData) (row col : Fin 9) (value : Nat) :
    SudokuData :=
  match b row col with
  | .Empty choices => writeCell b row col (.Empty (removeChoiceFn choices value))
  | _ => b

/-- Embedding of `SudokuData::get_box_positions` (sudoku_data.rs:256-266). -/
def get_box_positions (row col : Fin 9) : List (Fin 9 × Fin 9) :=
  (List.finRange 3).flatMap (fun i =>
    (List.finRange 3).map (fun j =>
      (⟨3 * (row.val / 3) + i.val, by have := row.isLt; have := i.isLt; omega⟩,
       ⟨3 * (col.val / 3) + j.val, by have := col.isLt; have := j.isLt; omega⟩)))

/-- The cells pruned by `set` (sudoku_data.rs:176-182): the row sweep and
column sweep interleaved, then the box positions. -/
def setTargets (row col : Fin 9) : List (Fin 9 × Fin 9) :=
  (List.finRange 9).flatMap (fun i => [(row, i), (i, col)]) ++ get_box_positions row col

def removeChoiceList (b : SudokuData) (targets : List (Fin 9 × Fin 9)) (value : Nat) :
    SudokuData :=
  targets.foldl (fun acc q => acc.remove_choice q.1 q.2 value) b

/-- Embedding of `SudokuData::set` (sudoku_data.rs:167-189): only an `Empty`
cell is written (carrying its candidate set into a `Value`, or becoming a
`FixedValue`), after which the digit is removed from the candidates of every
row, column and box cell. -/
def SudokuData.set (b : SudokuData) (row col : Fin 9) (value : Nat) (fixed : Bool) :
    SudokuData :=
  match b row col with
  | .Empty choices =>
    removeChoiceList
      (writeCell b row col (if fixed then .FixedValue value else .Value value choices))
      (setTargets row col) value
  | _ => b

/-- Embedding of `SudokuData::set_fade` (sudoku_data.rs:191-206). -/
def SudokuData.set_fade (b : SudokuData) (row col : Fin 9) (value : Nat)
    (fade_delay_ms : Int) : SudokuData :=
  match b row col with
  | .Empty _ =>
    writeCell b row col (.AnimatedValue value (fun _ => false) fade_delay_ms "fade-in")
  | _ => b

/-! ## The external solver grid

The `rust_sudoku_solver::Sudoku` type is an external collaborator; its code is
not part of this repository.  It is modelled from the spec (§6: a flat
`digits` array, 0 = blank; a flat `bitboard` candidate-bitmask array; a
`place(index, digit)` mutator) with the placement propagation of §4.1
(placing a digit removes it as a candidate of every cell sharing a row,
column or 3×3 box). -/

def rowOf (p : Fin 81) : Fin 9 := ⟨p.val / 9, by have := p.isLt; omega⟩

def colOf (p : Fin 81) : Fin 9 := ⟨p.val % 9, by omega⟩

def toIdx (i j : Fin 9) : Fin 81 :=
  ⟨9 * i.val + j.val, by have := i.isLt; have := j.isLt; omega⟩

/-- Two board positions share a row, a column, or a 3×3 box. -/
def sameUnit (r c r' c' : Fin 9) : Prop :=
  r = r' ∨ c = c' ∨ (r.val / 3 = r'.val / 3 ∧ c.val / 3 = c'.val / 3)

instance (r c r' c' : Fin 9) : Decidable (sameUnit r c r' c') := by
  unfold sameUnit
  infer_instance

def sameUnit81 (p q : Fin 81) : Prop :=
  sameUnit (rowOf p) (colOf p) (rowOf q) (colOf q)

instance (p q : Fin 81) : Decidable (sameUnit81 p q) := by
  unfold sameUnit81
  infer_instance

/-- Modelled from the spec: the external solver's digit-grid (§6). -/
structure Sudoku where
  digits : Fin 81 → Nat
  bitboard : Fin 81 → Nat

/-- Modelled from the spec: a default grid is all-blank with every candidate
digit 1–9 available; candidate `i` occupies bit `i` of the mask (the repo's
own `to_choices` reads bits 1 through 9), so the full mask is 1022. -/
def Sudoku.empty : Sudoku :=
  { digits := fun _ => 0, bitboard := fun _ => 1022 }

/-- Modelled from the spec: `place(index, digit)` records the digit and
removes it (`bitboard &= !(1 << digit)`, i.e. `Nat.ldiff`) from the candidate
mask of every cell sharing a row, column or box with `index` (§4.1 placement
propagation). -/
def Sudoku.place (s : Sudoku) (idx : Fin 81) (digit : Nat) : Sudoku :=
  { digits := fun p => if p = idx then digit else s.digits p,
    bitboard := fun p =>
      if sameUnit81 p idx then Nat.ldiff (s.bitboard p) (1 <<< digit)
      else s.bitboard p }

/-- Embedding of `to_choices` (actions.rs:166-172): `choices[i-1]` is bit `i`
of the candidate mask, for `i` in `1..=9`. -/
def to_choices (bitboard : Nat) : Fin 9 → Bool :=
  fun i => decide (bitboard &&& (1 <<< (i.val + 1)) ≠ 0)

/-- One placement of `From<&SudokuData> for Sudoku` (sudoku_data.rs:100-119):
a non-`Empty` cell's digit is placed, an `Empty` cell is skipped. -/
def placeStep (b : SudokuData) (s : Sudoku) (p : Fin 81) : Sudoku :=
  match b (rowOf p) (colOf p) with
  | .Empty _ => s
  | .Value v _ => s.place p v
  | .FixedValue v => s.place p v
  | .AnimatedValue v _ _ _ => s.place p v
  | .Error v _ => s.place p v

/-- Embedding of `From<&SudokuData> for Sudoku` (sudoku_data.rs:100-119):
every non-`Empty` cell's digit is placed into a fresh grid, row-major. -/
def sudokuFrom (b : SudokuData) : Sudoku :=
  (List.finRange 81).foldl (placeStep b) Sudoku.empty

/-- One placement of `SudokuData::fixed_sudoku` (sudoku_data.rs:237-254):
only a `FixedValue` cell is placed. -/
def fixedStep (b : SudokuData) (s : Sudoku) (p : Fin 81) : Sudoku :=
  match b (rowOf p) (colOf p) with
  | .FixedValue v => s.place p v
  | _ => s

/-- Embedding of `SudokuData::fixed_sudoku` (sudoku_data.rs:237-254): only
`FixedValue` cells are placed. -/
def SudokuData.fixed_sudoku (b : SudokuData) : Sudoku :=
  (List.finRange 81).foldl (fixedStep b) Sudoku.empty

/-! ## Solution application (`actions.rs`) -/

/-- One iteration of the loop of `update_from_sudoku` (actions.rs:174-187). -/
def updStep (sol : Sudoku) (fixed : Bool) (b : SudokuData) (p : Fin 81) : SudokuData :=
  if sol.digits p = 0 then
    writeCell b (rowOf p) (colOf p) (.Empty (to_choices (sol.bitboard p)))
  else
    SudokuData.set b (rowOf p) (colOf p) (sol.digits p) fixed

/-- Embedding of `update_from_sudoku` (actions.rs:174-187). -/
def update_from_sudoku (b : SudokuData) (sol : Sudoku) (fixed : Bool) : SudokuData :=
  (List.finRange 81).foldl (updStep sol fixed) b

/-- Embedding of `SudokuData::unset` (sudoku_data.rs:208-219): a placed,
non-fixed cell reverts to `Empty` with its carried candidates, after which the
whole board's candidates are recomputed from a snapshot of the remaining
values. -/
def SudokuData.unset (b : SudokuData) (row col : Fin 9) : SudokuData :=
  match b row col with
  | .Empty _ => b
  | .FixedValue _ => b
  | .Value _ choices | .Error _ choices | .AnimatedValue _ choices _ _ =>
    let b1 := writeCell b row col (.Empty choices)
    update_from_sudoku b1 (sudokuFrom b1) false

/-- One iteration of the loop of `update_from_sudoku_animated`
(actions.rs:189-207), threading the `duration` counter. -/
def animStep (sol : Sudoku) (st : SudokuData × Int) (p : Fin 81) : SudokuData × Int :=
  (if sol.digits p = 0 then
    writeCell st.1 (rowOf p) (colOf p) (.Empty (to_choices (sol.bitboard p)))
  else
    SudokuData.set_fade st.1 (rowOf p) (colOf p) (sol.digits p) st.2,
   st.2 + 5)

/-- Embedding of `update_from_sudoku_animated` (actions.rs:189-207).  The Rust
function visits the 81 cells in a randomly shuffled order; the visit order is
the parameter `order`. -/
def update_from_sudoku_animated (b : SudokuData) (sol : Sudoku)
    (order : List (Fin 81)) : SudokuData :=
  (order.foldl (animStep sol) (b, 0)).1

/-- One iteration of the recoloring loop of `compare_with_solution`
(actions.rs:212-235). -/
def recolorStep (sol : Sudoku) (b : SudokuData) (p : Fin 81) : SudokuData :=
  match b (rowOf p) (colOf p) with
  | .Value v _ | .AnimatedValue v _ _ _ =>
    if v = sol.digits p then
      writeCell b (rowOf p) (colOf p)
        (.AnimatedValue v (to_choices (sol.bitboard p)) 100 "fade-green")
    else
      writeCell b (rowOf p) (colOf p) (.Error v (to_choices (sol.bitboard p)))
  | _ => b

/-- Embedding of `compare_with_solution` (actions.rs:209-237).  The external
full solver `solver::solve` (out of scope per the spec §1) is a parameter:
it is applied to the fixed-clues-only snapshot, and on success the board is
recolored cell by cell. -/
def compare_with_solution (solve : Sudoku → Option Sudoku) (b : SudokuData) :
    Option SudokuData :=
  (solve b.fixed_sudoku).map (fun sol => (List.finRange 81).foldl (recolorStep sol) b)

/-! ## Parsing and display (`sudoku_data.rs`) -/

/-- Per-character parsing of `SudokuData::from_str` (sudoku_data.rs:150-159). -/
def cellOfChar (c : Char) : Option Cell :=
  if c = '.' then some (.Empty (fun _ => true))
  else if '1' ≤ c ∧ c ≤ '9' then some (.FixedValue (c.toNat - 48))
  else none

/-- The 81-fold `chars.next()` consumption of `SudokuData::from_str`
(sudoku_data.rs:145-163): take `n` cells from the character stream, failing on
exhaustion or an invalid character; characters beyond the 81st are never
requested. -/
def parseCells : Nat → List Char → Option (List Cell)
  | 0, _ => some []
  | _ + 1, [] => none
  | n + 1, c :: cs =>
    match cellOfChar c with
    | none => none
    | some cell =>
      match parseCells n cs with
      | none => none
      | some cells => some (cell :: cells)

/-- Embedding of `SudokuData::from_str` (sudoku_data.rs:142-164). -/
def from_str (s : List Char) : Option SudokuData :=
  (parseCells 81 s).map (fun cells =>
    fun i j => cells.getD (9 * i.val + j.val) (.Empty (fun _ => true)))

/-- Embedding of `is_valid_game_str` (util.rs:31-33). -/
def is_valid_game_str (s : List Char) : Bool :=
  s.length == 81 && s.all (fun c => c.isDigit || c == '.')

def concatMapList (f : α → List β) : List α → List β
  | [] => []
  | a :: L => f a ++ concatMapList f L

/-- Per-cell output of `Display for SudokuData` (sudoku_data.rs:303-320):
`'.'` for an empty cell, the decimal digits of the value otherwise. -/
def cellDisplay : Cell → List Char
  | .Empty _ => ['.']
  | .Value v _ => Nat.toDigits 10 v
  | .AnimatedValue v _ _ _ => Nat.toDigits 10 v
  | .FixedValue v => Nat.toDigits 10 v
  | .Error v _ => Nat.toDigits 10 v

/-- Embedding of `Display for SudokuData` (sudoku_data.rs:303-320): the cells
in row-major order. -/
def displayString (b : SudokuData) : List Char :=
  concatMapList
    (fun i => concatMapList (fun j => cellDisplay (b i j)) (List.finRange 9))
    (List.finRange 9)

/-! ## The candidate invariant (spec §3) -/

/-- The board invariant (spec §3): for any `Empty` cell, `choices[d-1]` is
false iff some peer cell (same row, column or box, other than the cell
itself) holds digit `d` in a value-carrying state. -/
def BoardInv (b : SudokuData) : Prop :=
  ∀ (r c : Fin 9) (ch : Fin 9 → Bool), b r c = .Empty ch →
    ∀ k : Fin 9, ch k = false ↔
      ∃ r' c' : Fin 9, ¬(r' = r ∧ c' = c) ∧ sameUnit r c r' c' ∧
        holdsDigit (b r' c') (k.val + 1) = true

/-- A `set` or `unset` call, as issued by the surrounding application. -/
inductive BoardOp where
  | set (row col : Fin 9) (value : Nat) (fixed : Bool)
  | unset (row col : Fin 9)

def applyOp (b : SudokuData) (op : BoardOp) : SudokuData :=
  match op with
  | .set r c v f => b.set r c v f
  | .unset r c => b.unset r c

/-- The precondition of `set` (spec §4.1): the placed digit lies in `1..=9`. -/
def opOk : BoardOp → Prop
  | .set _ _ v _ => 1 ≤ v ∧ v ≤ 9
  | .unset _ _ => True

instance (op : BoardOp) : Decidable (opOk op) :=
  match op with
  | .set _ _ v _ => inferInstanceAs (Decidable (1 ≤ v ∧ v ≤ 9))
  | .unset _ _ => inferInstanceAs (Decidable True)

example : to_choices 1022 = fun _ => true := by decide
example : to_choices 0 = fun _ => false := by decide
example : cellOfChar '5' = some (.FixedValue 5) := by decide
example : is_valid_game_str (List.replicate 81 '0') = true := by decide

/-! ### Cell-level lemmas -/

lemma writeCell_same (b : SudokuData) (r c : Fin 9) (cell : Cell) :
    writeCell b r c cell r c = cell := by
  simp [writeCell]

lemma writeCell_other (b : SudokuData) (r c : Fin 9) (cell : Cell) (i j : Fin 9)
    (h : ¬(i = r ∧ j = c)) : writeCell b r c cell i j = b i j := by
  simp [writeCell, h]

/-- The pointwise effect of `remove_choice` on its target cell. -/
def pruneCell (v : Nat) : Cell → Cell
  | .Empty ch => .Empty (removeChoiceFn ch v)
  | cell => cell

lemma removeChoiceFn_idem (ch : Fin 9 → Bool) (v : Nat) :
    removeChoiceFn (removeChoiceFn ch v) v = removeChoiceFn ch v := by
  funext k
  simp only [removeChoiceFn]
  split <;> rfl

lemma pruneCell_idem (v : Nat) (x : Cell) : pruneCell v (pruneCell v x) = pruneCell v x := by
  cases x <;> simp [pruneCell, removeChoiceFn_idem]

lemma pruneCell_holdsDigit (v d : Nat) (x : Cell) :
    holdsDigit (pruneCell v x) d = holdsDigit x d := by
  cases x <;> rfl

lemma pruneCell_is_empty (v : Nat) (x : Cell) :
    (pruneCell v x).is_empty = x.is_empty := by
  cases x <;> rfl

lemma remove_choice_eq (b : SudokuData) (r c : Fin 9) (v : Nat) :
    b.remove_choice r c v = writeCell b r c (pruneCell v (b r c)) := by
  funext i j
  by_cases hij : i = r ∧ j = c
  · obtain ⟨rfl, rfl⟩ := hij
    cases hb : b i j <;> simp [SudokuData.remove_choice, hb, writeCell, pruneCell]
  · cases hb : b r c <;> simp [SudokuData.remove_choice, hb, writeCell, hij]

lemma removeChoiceList_at (targets : List (Fin 9 × Fin 9)) (b : SudokuData) (v : Nat)
    (i j : Fin 9) :
    removeChoiceList b targets v i j =
      if (i, j) ∈ targets then pruneCell v (b i j) else b i j := by
  induction targets generalizing b with
  | nil => simp [removeChoiceList]
  | cons q targets ih =>
    have hstep : removeChoiceList b (q :: targets) v =
        removeChoiceList (b.remove_choice q.1 q.2 v) targets v := rfl
    rw [hstep, ih, remove_choice_eq]
    by_cases hq : (i, j) = q
    · subst hq
      by_cases hmem : (i, j) ∈ targets <;>
        simp [hmem, writeCell_same, pruneCell_idem, List.mem_cons]
    · have hne : ¬(i = q.1 ∧ j = q.2) := by
        rintro ⟨h1, h2⟩
        exact hq (Prod.ext h1 h2)
      rw [writeCell_other _ _ _ _ _ _ hne]
      by_cases hmem : (i, j) ∈ targets <;>
        simp [hmem, hq, List.mem_cons]

lemma sameUnit_refl (r c : Fin 9) : sameUnit r c r c := Or.inl rfl

lemma sameUnit_symm {r c r' c' : Fin 9} (h : sameUnit r c r' c') : sameUnit r' c' r c := by
  rcases h with h | h | ⟨h1, h2⟩
  · exact Or.inl h.symm
  · exact Or.inr (Or.inl h.symm)
  · exact Or.inr (Or.inr ⟨h1.symm, h2.symm⟩)

/-- The cells visited by the pruning sweeps of `set` are exactly the cells
sharing a row, column or box with the placed cell. -/
lemma setTargets_mem (r c i j : Fin 9) :
    (i, j) ∈ setTargets r c ↔ sameUnit r c i j := by
  unfold setTargets get_box_positions
  simp only [List.mem_append, List.mem_flatMap, List.mem_map, List.mem_cons,
    List.mem_singleton, List.mem_finRange, true_and, List.not_mem_nil, or_false]
  constructor
  · rintro (⟨a, h | h⟩ | ⟨a, b', h⟩)
    · injection h with h1 h2
      exact Or.inl h1.symm
    · injection h with h1 h2
      exact Or.inr (Or.inl h2.symm)
    · injection h with h1 h2
      subst h1
      subst h2
      refine Or.inr (Or.inr ⟨?_, ?_⟩)
      · show r.val / 3 = (3 * (r.val / 3) + a.val) / 3
        have := a.isLt
        omega
      · show c.val / 3 = (3 * (c.val / 3) + b'.val) / 3
        have := b'.isLt
        omega
  · rintro (h | h | ⟨h1, h2⟩)
    · exact Or.inl ⟨j, Or.inl (by rw [h])⟩
    · exact Or.inl ⟨i, Or.inr (by rw [h])⟩
    · refine Or.inr ⟨⟨i.val % 3, by omega⟩, ⟨j.val % 3, by omega⟩, ?_⟩
      have hi := i.isLt
      have hj := j.isLt
      refine Prod.ext (Fin.ext ?_) (Fin.ext ?_)
      · show 3 * (r.val / 3) + i.val % 3 = i.val
        omega
      · show 3 * (c.val / 3) + j.val % 3 = j.val
        omega

lemma is_empty_iff (x : Cell) : x.is_empty = true ↔ ∃ ch, x = .Empty ch := by
  cases x <;> simp [Cell.is_empty]

lemma set_noop (b : SudokuData) (r c : Fin 9) (v : Nat) (f : Bool)
    (h : (b r c).is_empty = false) : b.set r c v f = b := by
  unfold SudokuData.set
  cases hb : b r c <;> simp_all [Cell.is_empty]

/-- Pointwise characterization of `set` on an `Empty` cell: the cell itself
gets the new value; every other cell sharing a unit is candidate-pruned; the
rest is untouched. -/
lemma set_eq (b : SudokuData) (r c : Fin 9) (v : Nat) (f : Bool) (ch : Fin 9 → Bool)
    (hb : b r c = .Empty ch) (i j : Fin 9) :
    b.set r c v f i j =
      if i = r ∧ j = c then (if f then Cell.FixedValue v else Cell.Value v ch)
      else if sameUnit r c i j then pruneCell v (b i j) else b i j := by
  unfold SudokuData.set
  rw [hb]
  simp only
  rw [removeChoiceList_at]
  simp only [setTargets_mem]
  by_cases hij : i = r ∧ j = c
  · obtain ⟨rfl, rfl⟩ := hij
    rw [if_pos (sameUnit_refl i j), writeCell_same,
      if_pos (show i = i ∧ j = j from ⟨rfl, rfl⟩)]
    cases f <;> rfl
  · rw [writeCell_other _ _ _ _ _ _ hij, if_neg hij]

/-- `set` preserves the candidate invariant (for digits in `1..=9`). -/
theorem set_preserves_inv (b : SudokuData) (r c : Fin 9) (v : Nat) (f : Bool)
    (hv1 : 1 ≤ v) (hv9 : v ≤ 9) (hinv : BoardInv b) : BoardInv (b.set r c v f) := by
  by_cases hbe : (b r c).is_empty = true
  · obtain ⟨ch0, hb⟩ := (is_empty_iff _).mp hbe
    intro r' c' ch' hcell k
    have hnew : ∀ (i j : Fin 9), holdsDigit (b.set r c v f i j) (k.val + 1) =
        if i = r ∧ j = c then (v == k.val + 1) else holdsDigit (b i j) (k.val + 1) := by
      intro i j
      rw [set_eq b r c v f ch0 hb i j]
      by_cases h1 : i = r ∧ j = c
      · rw [if_pos h1, if_pos h1]
        cases f <;> rfl
      · rw [if_neg h1, if_neg h1]
        by_cases h2 : sameUnit r c i j
        · rw [if_pos h2, pruneCell_holdsDigit]
        · rw [if_neg h2]
    rw [set_eq b r c v f ch0 hb r' c'] at hcell
    by_cases hij : r' = r ∧ c' = c
    · rw [if_pos hij] at hcell
      cases f <;> simp at hcell
    · rw [if_neg hij] at hcell
      by_cases hsu : sameUnit r c r' c'
      · rw [if_pos hsu] at hcell
        cases hb' : b r' c' with
        | Empty ch'' =>
          rw [hb'] at hcell
          have hch : removeChoiceFn ch'' v = ch' := by simpa [pruneCell] using hcell
          rw [← hch]
          constructor
          · intro hfalse
            by_cases hk : k.val = v - 1
            · have hv' : v = k.val + 1 := by omega
              refine ⟨r, c, ?_, sameUnit_symm hsu, ?_⟩
              · rintro ⟨h1, h2⟩
                exact hij ⟨h1.symm, h2.symm⟩
              · rw [hnew r c, if_pos (show r = r ∧ c = c from ⟨rfl, rfl⟩)]
                simp [hv']
            · have hfalse' : ch'' k = false := by
                simpa [removeChoiceFn, hk] using hfalse
              obtain ⟨r'', c'', hne, hsu', hold⟩ := (hinv r' c' ch'' hb' k).mp hfalse'
              refine ⟨r'', c'', hne, hsu', ?_⟩
              rw [hnew r'' c'', if_neg ?_]
              · exact hold
              · rintro ⟨rfl, rfl⟩
                rw [hb] at hold
                simp [holdsDigit] at hold
          · rintro ⟨r'', c'', hne, hsu', hold⟩
            rw [hnew r'' c''] at hold
            by_cases h2 : r'' = r ∧ c'' = c
            · rw [if_pos h2] at hold
              have hveq : v = k.val + 1 := by simpa using hold
              simp [removeChoiceFn, show k.val = v - 1 by omega]
            · rw [if_neg h2] at hold
              have hck : ch'' k = false :=
                (hinv r' c' ch'' hb' k).mpr ⟨r'', c'', hne, hsu', hold⟩
              by_cases hk : k.val = v - 1 <;> simp [removeChoiceFn, hk, hck]
        | Value w chw =>
          rw [hb'] at hcell
          exact absurd hcell (by simp [pruneCell])
        | FixedValue w =>
          rw [hb'] at hcell
          exact absurd hcell (by simp [pruneCell])
        | AnimatedValue w chw d a =>
          rw [hb'] at hcell
          exact absurd hcell (by simp [pruneCell])
        | Error w chw =>
          rw [hb'] at hcell
          exact absurd hcell (by simp [pruneCell])
      · rw [if_neg hsu] at hcell
        constructor
        · intro hf
          obtain ⟨r'', c'', hne, hsu', hold⟩ := (hinv r' c' ch' hcell k).mp hf
          refine ⟨r'', c'', hne, hsu', ?_⟩
          rw [hnew r'' c'', if_neg ?_]
          · exact hold
          · rintro ⟨rfl, rfl⟩
            exact hsu (sameUnit_symm hsu')
        · rintro ⟨r'', c'', hne, hsu', hold⟩
          rw [hnew r'' c''] at hold
          have hne2 : ¬(r'' = r ∧ c'' = c) := by
            rintro ⟨rfl, rfl⟩
            exact hsu (sameUnit_symm hsu')
          rw [if_neg hne2] at hold
          exact (hinv r' c' ch' hcell k).mpr ⟨r'', c'', hne, hsu', hold⟩
  · rw [set_noop b r c v f (by simpa using hbe)]
    exact hinv

/-! ### Solver-grid characterization -/

lemma rowOf_toIdx (i j : Fin 9) : rowOf (toIdx i j) = i := by
  have := j.isLt
  exact Fin.ext (by show (9 * i.val + j.val) / 9 = i.val; omega)

lemma colOf_toIdx (i j : Fin 9) : colOf (toIdx i j) = j := by
  exact Fin.ext (by show (9 * i.val + j.val) % 9 = j.val; omega)

lemma toIdx_rowOf_colOf (p : Fin 81) : toIdx (rowOf p) (colOf p) = p := by
  exact Fin.ext (by show 9 * (p.val / 9) + p.val % 9 = p.val; omega)

lemma toIdx_inj {i j i' j' : Fin 9} (h : toIdx i j = toIdx i' j') : i = i' ∧ j = j' := by
  have hv : 9 * i.val + j.val = 9 * i'.val + j'.val := congrArg Fin.val h
  have := i.isLt
  have := j.isLt
  have := i'.isLt
  have := j'.isLt
  exact ⟨Fin.ext (by omega), Fin.ext (by omega)⟩

lemma sameUnit81_toIdx (i j i' j' : Fin 9) :
    sameUnit81 (toIdx i j) (toIdx i' j') ↔ sameUnit i j i' j' := by
  unfold sameUnit81
  rw [rowOf_toIdx, colOf_toIdx, rowOf_toIdx, colOf_toIdx]

lemma land_two_pow_ne (bb i : Nat) :
    bb &&& (1 <<< i) ≠ 0 ↔ bb.testBit i = true := by
  rw [Nat.one_shiftLeft]
  constructor
  · intro h
    by_contra hbit
    apply h
    apply Nat.zero_of_testBit_eq_false
    intro j
    rw [Nat.testBit_land]
    by_cases hj : j = i
    · subst hj
      rw [Bool.not_eq_true] at hbit
      rw [hbit]
      rfl
    · rw [Nat.testBit_two_pow]
      simp [Ne.symm hj]
  · intro h h0
    have hb : (bb &&& (2 ^ i)).testBit i = true := by
      rw [Nat.testBit_land, h, Nat.testBit_two_pow]
      simp
    rw [h0] at hb
    simp [Nat.zero_testBit] at hb

lemma to_choices_iff (bb : Nat) (k : Fin 9) :
    to_choices bb k = true ↔ bb.testBit (k.val + 1) = true := by
  unfold to_choices
  rw [decide_eq_true_eq]
  exact land_two_pow_ne bb (k.val + 1)

lemma cellValue_eq_zero_of_empty {x : Cell} (h : x.is_empty = true) : cellValue x = 0 := by
  cases x <;> simp_all [Cell.is_empty, cellValue]

lemma not_empty_of_cellValue_ne_zero {x : Cell} (h : cellValue x ≠ 0) :
    x.is_empty = false := by
  cases x <;> simp_all [Cell.is_empty, cellValue]

lemma holdsDigit_iff (x : Cell) (d : Nat) (hd : d ≠ 0) :
    holdsDigit x d = true ↔ cellValue x = d := by
  cases x <;> simp [holdsDigit, cellValue] <;> omega

lemma placeStep_digits (b : SudokuData) (s : Sudoku) (p q : Fin 81) :
    (placeStep b s p).digits q =
      if q = p ∧ (b (rowOf p) (colOf p)).is_empty = false then
        cellValue (b (rowOf p) (colOf p))
      else s.digits q := by
  by_cases hq : q = p
  · subst hq
    cases hb : b (rowOf q) (colOf q) <;>
      simp [placeStep, Sudoku.place, hb, Cell.is_empty, cellValue]
  · cases hb : b (rowOf p) (colOf p) <;>
      simp [placeStep, Sudoku.place, hb, Cell.is_empty, cellValue, hq]

lemma placeStep_testBit (b : SudokuData) (s : Sudoku) (p q : Fin 81) (k : Nat) :
    ((placeStep b s p).bitboard q).testBit k = true ↔
      ((s.bitboard q).testBit k = true ∧
        ¬((b (rowOf p) (colOf p)).is_empty = false ∧ sameUnit81 q p ∧
          cellValue (b (rowOf p) (colOf p)) = k)) := by
  cases hb : b (rowOf p) (colOf p) with
  | Empty ch => simp [placeStep, hb, Cell.is_empty]
  | Value v ch =>
    simp only [placeStep, hb, Sudoku.place, Cell.is_empty, cellValue]
    by_cases hsu : sameUnit81 q p
    · rw [if_pos hsu, Nat.testBit_ldiff, Nat.one_shiftLeft, Nat.testBit_two_pow]
      by_cases hv : v = k <;> simp [hsu, hv]
    · rw [if_neg hsu]
      simp [hsu]
  | FixedValue v =>
    simp only [placeStep, hb, Sudoku.place, Cell.is_empty, cellValue]
    by_cases hsu : sameUnit81 q p
    · rw [if_pos hsu, Nat.testBit_ldiff, Nat.one_shiftLeft, Nat.testBit_two_pow]
      by_cases hv : v = k <;> simp [hsu, hv]
    · rw [if_neg hsu]
      simp [hsu]
  | AnimatedValue v ch d a =>
    simp only [placeStep, hb, Sudoku.place, Cell.is_empty, cellValue]
    by_cases hsu : sameUnit81 q p
    · rw [if_pos hsu, Nat.testBit_ldiff, Nat.one_shiftLeft, Nat.testBit_two_pow]
      by_cases hv : v = k <;> simp [hsu, hv]
    · rw [if_neg hsu]
      simp [hsu]
  | Error v ch =>
    simp only [placeStep, hb, Sudoku.place, Cell.is_empty, cellValue]
    by_cases hsu : sameUnit81 q p
    · rw [if_pos hsu, Nat.testBit_ldiff, Nat.one_shiftLeft, Nat.testBit_two_pow]
      by_cases hv : v = k <;> simp [hsu, hv]
    · rw [if_neg hsu]
      simp [hsu]

lemma foldPlace_digits (b : SudokuData) :
    ∀ (L : List (Fin 81)) (s : Sudoku) (q : Fin 81),
      ((L.foldl (placeStep b) s).digits q) =
        if q ∈ L ∧ (b (rowOf q) (colOf q)).is_empty = false then
          cellValue (b (rowOf q) (colOf q))
        else s.digits q := by
  intro L
  induction L with
  | nil => simp
  | cons p L ih =>
    intro s q
    rw [List.foldl_cons, ih, placeStep_digits]
    by_cases hmem : q ∈ L ∧ (b (rowOf q) (colOf q)).is_empty = false
    · rw [if_pos hmem, if_pos ⟨List.mem_cons_of_mem p hmem.1, hmem.2⟩]
    · by_cases hq : q = p
      · subst hq
        by_cases hocc : (b (rowOf q) (colOf q)).is_empty = false
        · rw [if_neg hmem, if_pos ⟨rfl, hocc⟩, if_pos ⟨List.mem_cons_self q L, hocc⟩]
        · rw [if_neg hmem, if_neg (fun h => hocc h.2), if_neg (fun h => hocc h.2)]
      · have hnot : ¬(q ∈ p :: L ∧ (b (rowOf q) (colOf q)).is_empty = false) := by
          rintro ⟨hmem2, hocc⟩
          rcases List.mem_cons.mp hmem2 with h | h
          · exact hq h
          · exact hmem ⟨h, hocc⟩
        rw [if_neg hmem, if_neg (fun h => hq h.1), if_neg hnot]

lemma foldPlace_testBit (b : SudokuData) :
    ∀ (L : List (Fin 81)) (s : Sudoku) (q : Fin 81) (k : Nat),
      (((L.foldl (placeStep b) s).bitboard q).testBit k = true) ↔
        ((s.bitboard q).testBit k = true ∧
          ¬∃ p ∈ L, (b (rowOf p) (colOf p)).is_empty = false ∧ sameUnit81 q p ∧
            cellValue (b (rowOf p) (colOf p)) = k) := by
  intro L
  induction L with
  | nil => simp
  | cons p L ih =>
    intro s q k
    rw [List.foldl_cons, ih, placeStep_testBit]
    constructor
    · rintro ⟨⟨hbit, hnp⟩, hnL⟩
      refine ⟨hbit, ?_⟩
      rintro ⟨p', hp', hocc, hsu, hval⟩
      rcases List.mem_cons.mp hp' with h | h
      · subst h
        exact hnp ⟨hocc, hsu, hval⟩
      · exact hnL ⟨p', h, hocc, hsu, hval⟩
    · rintro ⟨hbit, hno⟩
      refine ⟨⟨hbit, ?_⟩, ?_⟩
      · rintro ⟨hocc, hsu, hval⟩
        exact hno ⟨p, List.mem_cons_self p L, hocc, hsu, hval⟩
      · rintro ⟨p', hp', hocc, hsu, hval⟩
        exact hno ⟨p', List.mem_cons_of_mem p hp', hocc, hsu, hval⟩

/-- The digit grid extracted by `From<&SudokuData>`: the digit of each cell. -/
lemma sudokuFrom_digits (b : SudokuData) (q : Fin 81) :
    (sudokuFrom b).digits q = cellValue (b (rowOf q) (colOf q)) := by
  unfold sudokuFrom
  rw [foldPlace_digits]
  by_cases hocc : (b (rowOf q) (colOf q)).is_empty = false
  · rw [if_pos ⟨List.mem_finRange q, hocc⟩]
  · rw [if_neg (fun h => hocc h.2)]
    have : (b (rowOf q) (colOf q)).is_empty = true := by
      cases h : (b (rowOf q) (colOf q)).is_empty
      · exact absurd h hocc
      · rfl
    rw [cellValue_eq_zero_of_empty this]
    rfl

/-- The candidate mask extracted by `From<&SudokuData>`: bit `k` of a cell's
mask survives iff no occupied cell of the same row/column/box holds `k`. -/
lemma sudokuFrom_testBit (b : SudokuData) (q : Fin 81) (k : Nat) :
    (((sudokuFrom b).bitboard q).testBit k = true) ↔
      ((1022 : Nat).testBit k = true ∧
        ¬∃ p : Fin 81, (b (rowOf p) (colOf p)).is_empty = false ∧ sameUnit81 q p ∧
          cellValue (b (rowOf p) (colOf p)) = k) := by
  unfold sudokuFrom
  rw [foldPlace_testBit]
  constructor
  · rintro ⟨hbit, hno⟩
    exact ⟨hbit, fun ⟨p, h⟩ => hno ⟨p, List.mem_finRange p, h⟩⟩
  · rintro ⟨hbit, hno⟩
    exact ⟨hbit, fun ⟨p, _, h⟩ => hno ⟨p, h⟩⟩

/-! ### Recompute-on-unset characterization -/

/-- Folding `update_from_sudoku` over the board's own snapshot: every cell
carrying a nonzero digit is left exactly as it was (the inner `set` is a
no-op on occupied cells), and every other cell is overwritten with the
snapshot's candidate mask. -/
lemma upd_self_char (b1 : SudokuData) :
    ∀ (L : List (Fin 81)) (bAcc : SudokuData),
      (∀ i j, cellValue (b1 i j) ≠ 0 → bAcc i j = b1 i j) →
      ∀ (i j : Fin 9),
        (L.foldl (updStep (sudokuFrom b1) false) bAcc) i j =
          if toIdx i j ∈ L ∧ cellValue (b1 i j) = 0 then
            Cell.Empty (to_choices ((sudokuFrom b1).bitboard (toIdx i j)))
          else bAcc i j := by
  intro L
  induction L with
  | nil => simp
  | cons p L ih =>
    intro bAcc hAcc i j
    rw [List.foldl_cons]
    by_cases hz : cellValue (b1 (rowOf p) (colOf p)) = 0
    · have hd : (sudokuFrom b1).digits p = 0 := by rw [sudokuFrom_digits]; exact hz
      have hstep : updStep (sudokuFrom b1) false bAcc p =
          writeCell bAcc (rowOf p) (colOf p)
            (.Empty (to_choices ((sudokuFrom b1).bitboard p))) := by
        unfold updStep
        rw [if_pos hd]
      rw [hstep]
      have hAcc' : ∀ i j, cellValue (b1 i j) ≠ 0 →
          writeCell bAcc (rowOf p) (colOf p)
            (.Empty (to_choices ((sudokuFrom b1).bitboard p))) i j = b1 i j := by
        intro i' j' hij
        rw [writeCell_other]
        · exact hAcc i' j' hij
        · rintro ⟨rfl, rfl⟩
          exact hij hz
      rw [ih _ hAcc' i j]
      by_cases h1 : toIdx i j ∈ L ∧ cellValue (b1 i j) = 0
      · rw [if_pos h1, if_pos ⟨List.mem_cons_of_mem p h1.1, h1.2⟩]
      · by_cases h2 : toIdx i j = p
        · have hri : i = rowOf p := by rw [← h2, rowOf_toIdx]
          have hcj : j = colOf p := by rw [← h2, colOf_toIdx]
          have hcv : cellValue (b1 i j) = 0 := by rw [hri, hcj]; exact hz
          rw [if_neg h1, if_pos ⟨List.mem_cons.mpr (Or.inl h2), hcv⟩]
          subst hri
          subst hcj
          rw [writeCell_same, toIdx_rowOf_colOf]
        · have hne : ¬(i = rowOf p ∧ j = colOf p) := by
            rintro ⟨rfl, rfl⟩
            exact h2 (toIdx_rowOf_colOf p)
          have hnot : ¬(toIdx i j ∈ p :: L ∧ cellValue (b1 i j) = 0) := by
            rintro ⟨hm, hcv⟩
            rcases List.mem_cons.mp hm with h | h
            · exact h2 h
            · exact h1 ⟨h, hcv⟩
          rw [if_neg h1, if_neg hnot, writeCell_other _ _ _ _ _ _ hne]
    · have hd : ¬((sudokuFrom b1).digits p = 0) := by rw [sudokuFrom_digits]; exact hz
      have hocc : (bAcc (rowOf p) (colOf p)).is_empty = false := by
        rw [hAcc _ _ hz]
        exact not_empty_of_cellValue_ne_zero hz
      have hstep : updStep (sudokuFrom b1) false bAcc p = bAcc := by
        unfold updStep
        rw [if_neg hd]
        exact set_noop _ _ _ _ _ hocc
      rw [hstep, ih bAcc hAcc i j]
      by_cases h1 : toIdx i j ∈ L ∧ cellValue (b1 i j) = 0
      · rw [if_pos h1, if_pos ⟨List.mem_cons_of_mem p h1.1, h1.2⟩]
      · have hnot : ¬(toIdx i j ∈ p :: L ∧ cellValue (b1 i j) = 0) := by
          rintro ⟨hm, hcv⟩
          rcases List.mem_cons.mp hm with h | h
          · have hri : i = rowOf p := by rw [← h, rowOf_toIdx]
            have hcj : j = colOf p := by rw [← h, colOf_toIdx]
            rw [hri, hcj] at hcv
            exact hz hcv
          · exact h1 ⟨h, hcv⟩
        rw [if_neg h1, if_neg hnot]

/-- Recomputing the whole board from its own snapshot, pointwise. -/
lemma update_self_eq (b1 : SudokuData) (i j : Fin 9) :
    update_from_sudoku b1 (sudokuFrom b1) false i j =
      if cellValue (b1 i j) = 0 then
        Cell.Empty (to_choices ((sudokuFrom b1).bitboard (toIdx i j)))
      else b1 i j := by
  unfold update_from_sudoku
  rw [upd_self_char b1 (List.finRange 81) b1 (fun _ _ _ => rfl) i j]
  simp [List.mem_finRange]

/-- Recomputing the board from its own snapshot restores the candidate
invariant unconditionally. -/
theorem update_self_inv (b1 : SudokuData) :
    BoardInv (update_from_sudoku b1 (sudokuFrom b1) false) := by
  intro r c ch hcell k
  rw [update_self_eq] at hcell
  by_cases hz : cellValue (b1 r c) = 0
  · rw [if_pos hz] at hcell
    injection hcell with hch
    have h1022 : (1022 : Nat).testBit (k.val + 1) = true := by
      have hall : ∀ k : Fin 9, (1022 : Nat).testBit (k.val + 1) = true := by decide
      exact hall k
    have hLHS : (ch k = false) ↔
        ∃ p : Fin 81, (b1 (rowOf p) (colOf p)).is_empty = false ∧
          sameUnit81 (toIdx r c) p ∧
          cellValue (b1 (rowOf p) (colOf p)) = k.val + 1 := by
      rw [← hch]
      rw [show (to_choices ((sudokuFrom b1).bitboard (toIdx r c)) k = false) ↔
          ¬(to_choices ((sudokuFrom b1).bitboard (toIdx r c)) k = true) by simp]
      rw [to_choices_iff, sudokuFrom_testBit]
      constructor
      · intro h
        by_contra hno
        exact h ⟨h1022, hno⟩
      · rintro hex ⟨-, hno⟩
        exact hno hex
    rw [hLHS]
    constructor
    · rintro ⟨p, hocc, hsu, hval⟩
      refine ⟨rowOf p, colOf p, ?_, ?_, ?_⟩
      · rintro ⟨hr, hc⟩
        have hp : p = toIdx r c := by rw [← toIdx_rowOf_colOf p, hr, hc]
        rw [hp, rowOf_toIdx, colOf_toIdx] at hval
        rw [hval] at hz
        omega
      · have hsu' := hsu
        unfold sameUnit81 at hsu'
        rw [rowOf_toIdx, colOf_toIdx] at hsu'
        exact hsu'
      · have hnz : ¬(cellValue (b1 (rowOf p) (colOf p)) = 0) := by
          rw [hval]
          omega
        rw [update_self_eq, if_neg hnz, holdsDigit_iff _ _ (by omega)]
        exact hval
    · rintro ⟨r', c', hne, hsu, hold⟩
      rw [update_self_eq] at hold
      by_cases hz' : cellValue (b1 r' c') = 0
      · rw [if_pos hz'] at hold
        simp [holdsDigit] at hold
      · rw [if_neg hz', holdsDigit_iff _ _ (by omega)] at hold
        refine ⟨toIdx r' c', ?_, ?_, ?_⟩
        · rw [rowOf_toIdx, colOf_toIdx]
          exact not_empty_of_cellValue_ne_zero hz'
        · unfold sameUnit81
          rw [rowOf_toIdx, colOf_toIdx, rowOf_toIdx, colOf_toIdx]
          exact hsu
        · rw [rowOf_toIdx, colOf_toIdx]
          exact hold
  · rw [if_neg hz] at hcell
    have : cellValue (b1 r c) = 0 := by
      rw [hcell]
      rfl
    exact absurd this hz

/-- `unset` preserves (indeed, re-establishes) the candidate invariant. -/
theorem unset_inv (b : SudokuData) (row col : Fin 9) (hinv : BoardInv b) :
    BoardInv (b.unset row col) := by
  unfold SudokuData.unset
  cases hb : b row col with
  | Empty ch => exact hinv
  | FixedValue v => exact hinv
  | Value v ch => exact update_self_inv _
  | AnimatedValue v ch d a => exact update_self_inv _
  | Error v ch => exact update_self_inv _

lemma inv_fold (ops : List BoardOp) :
    ∀ b : SudokuData, (∀ op ∈ ops, opOk op) → BoardInv b →
      BoardInv (ops.foldl applyOp b) := by
  induction ops with
  | nil => exact fun b _ h => h
  | cons op ops ih =>
    intro b hops hinv
    rw [List.foldl_cons]
    apply ih _ (fun o ho => hops o (List.mem_cons_of_mem op ho))
    cases op with
    | set r c v f =>
      obtain ⟨h1, h9⟩ := hops _ (List.mem_cons_self _ _)
      exact set_preserves_inv b r c v f h1 h9 hinv
    | unset r c => exact unset_inv b r c hinv

/-- C2: Board candidate invariant — after any sequence of `set`/`unset` calls
(with digits in `1..=9`) starting from a board satisfying the invariant, every
`Empty` cell's candidate `d` is excluded iff some peer (same row, column or
3×3 box) holds `d` in a value-carrying state. -/
theorem C2_candidate_invariant (ops : List BoardOp) (b : SudokuData)
    (hops : ∀ op ∈ ops, opOk op) (hinv : BoardInv b) :
    BoardInv (ops.foldl applyOp b) :=
  inv_fold ops b hops hinv

/-- The all-empty, all-candidates board satisfies the invariant. -/
lemma inv_default : BoardInv (fun _ _ => Cell.Empty (fun _ => true)) := by
  intro r c ch hcell k
  injection hcell with hch
  constructor
  · intro hk
    rw [← hch] at hk
    simp at hk
  · rintro ⟨r', c', -, -, hold⟩
    simp [holdsDigit] at hold

/-- Witness for C2: placing a 5 and then clearing it on the default board. -/
theorem C2_candidate_invariant_witness :
    (∀ op ∈ [BoardOp.set 0 0 5 false, BoardOp.unset 0 0], opOk op) ∧
    BoardInv (fun _ _ => Cell.Empty (fun _ => true)) ∧
    BoardInv ([BoardOp.set 0 0 5 false, BoardOp.unset 0 0].foldl applyOp
      (fun _ _ => Cell.Empty (fun _ => true))) :=
  ⟨by decide, inv_default,
    C2_candidate_invariant [BoardOp.set 0 0 5 false, BoardOp.unset 0 0]
      (fun _ _ => Cell.Empty (fun _ => true)) (by decide) inv_default⟩

/-! ### Applying an arbitrary solver grid (C3) -/

lemma updStep_zero {sol : Sudoku} {p : Fin 81} (f : Bool) (b : SudokuData)
    (h : sol.digits p = 0) :
    updStep sol f b p =
      writeCell b (rowOf p) (colOf p) (.Empty (to_choices (sol.bitboard p))) := by
  unfold updStep
  rw [if_pos h]

lemma updStep_nonzero {sol : Sudoku} {p : Fin 81} (f : Bool) (b : SudokuData)
    (h : sol.digits p ≠ 0) :
    updStep sol f b p = SudokuData.set b (rowOf p) (colOf p) (sol.digits p) f := by
  unfold updStep
  rw [if_neg h]

lemma updStep_other (sol : Sudoku) (f : Bool) (b : SudokuData) (p : Fin 81) (i j : Fin 9)
    (hne : ¬(i = rowOf p ∧ j = colOf p)) :
    ((b i j).is_empty = false → updStep sol f b p i j = b i j) ∧
    ((updStep sol f b p i j).is_empty = (b i j).is_empty) := by
  unfold updStep
  by_cases hd : sol.digits p = 0
  · rw [if_pos hd]
    constructor
    · intro _
      exact writeCell_other _ _ _ _ _ _ hne
    · rw [writeCell_other _ _ _ _ _ _ hne]
  · rw [if_neg hd]
    by_cases hocc : (b (rowOf p) (colOf p)).is_empty = true
    · obtain ⟨ch0, hb⟩ := (is_empty_iff _).mp hocc
      constructor
      · intro hbe
        rw [set_eq _ _ _ _ _ _ hb i j, if_neg hne]
        by_cases hsu : sameUnit (rowOf p) (colOf p) i j
        · rw [if_pos hsu]
          cases hcell : b i j <;> simp_all [pruneCell, Cell.is_empty]
        · rw [if_neg hsu]
      · rw [set_eq _ _ _ _ _ _ hb i j, if_neg hne]
        by_cases hsu : sameUnit (rowOf p) (colOf p) i j
        · rw [if_pos hsu, pruneCell_is_empty]
        · rw [if_neg hsu]
    · have hocc' : (b (rowOf p) (colOf p)).is_empty = false := by simpa using hocc
      rw [set_noop _ _ _ _ _ hocc']
      exact ⟨fun _ => rfl, rfl⟩

lemma fold_upd_other (sol : Sudoku) (f : Bool) :
    ∀ (L : List (Fin 81)) (b : SudokuData) (i j : Fin 9),
      (∀ p ∈ L, ¬(i = rowOf p ∧ j = colOf p)) →
      ((b i j).is_empty = false → (L.foldl (updStep sol f) b) i j = b i j) ∧
      ((L.foldl (updStep sol f) b) i j).is_empty = (b i j).is_empty := by
  intro L
  induction L with
  | nil => exact fun b i j _ => ⟨fun _ => rfl, rfl⟩
  | cons p L ih =>
    intro b i j hne
    rw [List.foldl_cons]
    obtain ⟨hstep1, hstep2⟩ := updStep_other sol f b p i j (hne p (List.mem_cons_self p L))
    obtain ⟨hf1, hf2⟩ :=
      ih (updStep sol f b p) i j (fun q hq => hne q (List.mem_cons_of_mem p hq))
    constructor
    · intro hbe
      rw [hf1 (by rw [hstep2]; exact hbe), hstep1 hbe]
    · rw [hf2, hstep2]

/-- The fate of the cell at a visited position `p` under `update_from_sudoku`:
a zero digit leaves the cell `Empty`; a nonzero digit fills the cell only if
it is currently `Empty`, and otherwise leaves it exactly as it was. -/
lemma pos_ne_of_ne {p q : Fin 81} (h : p ≠ q) :
    ¬(rowOf p = rowOf q ∧ colOf p = colOf q) := by
  rintro ⟨h1, h2⟩
  apply h
  rw [← toIdx_rowOf_colOf p, ← toIdx_rowOf_colOf q, h1, h2]

/-- The candidate clearing a later iteration of `update_from_sudoku` inflicts
on the cell at `q`: a position `p` whose grid digit is nonzero and whose board
cell is empty at its visit executes `set`, which removes that digit from the
candidates of every cell sharing a row, column or box with `p`. -/
def pruneByPlacement (sol : Sudoku) (b : SudokuData) (q : Fin 81)
    (ch : Fin 9 → Bool) (p : Fin 81) : Fin 9 → Bool :=
  if sol.digits p ≠ 0 ∧ (b (rowOf p) (colOf p)).is_empty = true ∧ sameUnit81 p q then
    removeChoiceFn ch (sol.digits p)
  else ch

/-- The pruning fold only consults the emptiness of the visited cells. -/
lemma pruneByPlacement_congr (sol : Sudoku) (b1 b2 : SudokuData) (q : Fin 81) :
    ∀ (L : List (Fin 81)) (ch : Fin 9 → Bool),
      (∀ p ∈ L, (b1 (rowOf p) (colOf p)).is_empty = (b2 (rowOf p) (colOf p)).is_empty) →
      L.foldl (pruneByPlacement sol b1 q) ch = L.foldl (pruneByPlacement sol b2 q) ch := by
  intro L
  induction L with
  | nil => exact fun ch _ => rfl
  | cons p L ih =>
    intro ch h
    rw [List.foldl_cons, List.foldl_cons]
    have hp := h p (List.mem_cons_self p L)
    have hfn : pruneByPlacement sol b1 q ch p = pruneByPlacement sol b2 q ch p := by
      unfold pruneByPlacement
      by_cases hc : sol.digits p ≠ 0 ∧ (b2 (rowOf p) (colOf p)).is_empty = true ∧
          sameUnit81 p q
      · rw [if_pos hc, if_pos ⟨hc.1, by rw [hp]; exact hc.2.1, hc.2.2⟩]
      · rw [if_neg hc, if_neg (fun hcc => hc ⟨hcc.1, by rw [← hp]; exact hcc.2.1, hcc.2.2⟩)]
    rw [hfn]
    exact ih _ (fun p' hp' => h p' (List.mem_cons_of_mem p hp'))

/-- Tracking an `Empty` cell through the remainder of the sweep: it stays
`Empty`, and its candidates lose exactly the digits placed by the executing
`set` calls at cells sharing a unit with it. -/
lemma fold_upd_empty_track (sol : Sudoku) (f : Bool) :
    ∀ (L : List (Fin 81)), L.Nodup →
      ∀ (bAcc : SudokuData) (q : Fin 81) (ch : Fin 9 → Bool),
        (∀ p ∈ L, p ≠ q) →
        bAcc (rowOf q) (colOf q) = Cell.Empty ch →
        (L.foldl (updStep sol f) bAcc) (rowOf q) (colOf q) =
          Cell.Empty (L.foldl (pruneByPlacement sol bAcc q) ch) := by
  intro L
  induction L with
  | nil => exact fun _ bAcc q ch _ hq => hq
  | cons p0 L ih =>
    intro hnd bAcc q ch hne hq
    obtain ⟨hp0L, hndL⟩ := List.nodup_cons.mp hnd
    have hp0q : p0 ≠ q := hne p0 (List.mem_cons_self p0 L)
    have hposne : ¬(rowOf q = rowOf p0 ∧ colOf q = colOf p0) :=
      pos_ne_of_ne (fun hqp => hp0q hqp.symm)
    have htail : ∀ p ∈ L, p ≠ q := fun p hp => hne p (List.mem_cons_of_mem p0 hp)
    have hkind : ∀ p ∈ L, ((updStep sol f bAcc p0) (rowOf p) (colOf p)).is_empty =
        (bAcc (rowOf p) (colOf p)).is_empty := by
      intro p hp
      have hpp0 : p ≠ p0 := fun hcc => hp0L (hcc ▸ hp)
      exact (updStep_other sol f bAcc p0 (rowOf p) (colOf p) (pos_ne_of_ne hpp0)).2
    rw [List.foldl_cons, List.foldl_cons]
    by_cases hd : sol.digits p0 = 0
    · have hq' : (updStep sol f bAcc p0) (rowOf q) (colOf q) = Cell.Empty ch := by
        rw [updStep_zero f _ hd, writeCell_other _ _ _ _ _ _ hposne]
        exact hq
      have hfn0 : pruneByPlacement sol bAcc q ch p0 = ch := by
        unfold pruneByPlacement
        rw [if_neg (fun hcc => hcc.1 hd)]
      rw [hfn0, ih hndL (updStep sol f bAcc p0) q ch htail hq']
      congr 1
      exact pruneByPlacement_congr sol (updStep sol f bAcc p0) bAcc q L ch hkind
    · by_cases hbe : (bAcc (rowOf p0) (colOf p0)).is_empty = true
      · obtain ⟨ch0, hch0⟩ := (is_empty_iff _).mp hbe
        have hstep : (updStep sol f bAcc p0) (rowOf q) (colOf q) =
            Cell.Empty (if sameUnit81 p0 q then removeChoiceFn ch (sol.digits p0)
              else ch) := by
          rw [updStep_nonzero f _ hd, set_eq _ _ _ _ _ _ hch0 (rowOf q) (colOf q),
            if_neg hposne, hq]
          by_cases hsu : sameUnit81 p0 q
          · rw [if_pos (show sameUnit (rowOf p0) (colOf p0) (rowOf q) (colOf q) from hsu),
              if_pos hsu]
            rfl
          · rw [if_neg (show ¬sameUnit (rowOf p0) (colOf p0) (rowOf q) (colOf q) from hsu),
              if_neg hsu]
        have hfn : pruneByPlacement sol bAcc q ch p0 =
            (if sameUnit81 p0 q then removeChoiceFn ch (sol.digits p0) else ch) := by
          unfold pruneByPlacement
          by_cases hsu : sameUnit81 p0 q
          · rw [if_pos ⟨hd, hbe, hsu⟩, if_pos hsu]
          · rw [if_neg (fun hcc => hsu hcc.2.2), if_neg hsu]
        rw [hfn, ih hndL (updStep sol f bAcc p0) q _ htail hstep]
        congr 1
        exact pruneByPlacement_congr sol (updStep sol f bAcc p0) bAcc q L _ hkind
      · have hbe' : (bAcc (rowOf p0) (colOf p0)).is_empty = false := by simpa using hbe
        have hstep : updStep sol f bAcc p0 = bAcc := by
          rw [updStep_nonzero f _ hd]
          exact set_noop _ _ _ _ _ hbe'
        have hfn : pruneByPlacement sol bAcc q ch p0 = ch := by
          unfold pruneByPlacement
          rw [if_neg ?_]
          rintro ⟨-, hcon, -⟩
          rw [hbe'] at hcon
          exact absurd hcon (by simp)
        rw [hstep, hfn]
        exact ih hndL bAcc q ch htail hq

/-- The fate of the cell at the visited position `p` of the sweep
`L1 ++ p :: L2`: a zero digit leaves the cell `Empty`, holding the grid's
candidate mask minus the digits placed by the rest of the sweep at same-unit
cells; a nonzero digit fills the cell only if it is currently `Empty`, and
otherwise leaves it exactly as it was. -/
lemma fold_upd_split (sol : Sudoku) (f : Bool) (L1 L2 : List (Fin 81)) (p : Fin 81)
    (hnd : (L1 ++ p :: L2).Nodup) (b : SudokuData) :
    (sol.digits p = 0 →
      (((L1 ++ p :: L2).foldl (updStep sol f) b) (rowOf p) (colOf p)) =
        Cell.Empty (L2.foldl (pruneByPlacement sol b p)
          (to_choices (sol.bitboard p)))) ∧
    (sol.digits p ≠ 0 → (b (rowOf p) (colOf p)).is_empty = true →
      ∃ ch, ((L1 ++ p :: L2).foldl (updStep sol f) b) (rowOf p) (colOf p) =
        if f then Cell.FixedValue (sol.digits p) else Cell.Value (sol.digits p) ch) ∧
    (sol.digits p ≠ 0 → (b (rowOf p) (colOf p)).is_empty = false →
      ((L1 ++ p :: L2).foldl (updStep sol f) b) (rowOf p) (colOf p) =
        b (rowOf p) (colOf p)) := by
  rw [List.nodup_append] at hnd
  obtain ⟨-, hnd2, hdisj⟩ := hnd
  have hp1 : p ∉ L1 := fun hmem => hdisj hmem (List.mem_cons_self p L2)
  have hp2 : p ∉ L2 := (List.nodup_cons.mp hnd2).1
  have hndL2 : L2.Nodup := (List.nodup_cons.mp hnd2).2
  have hdisjL2 : ∀ q ∈ L2, q ∉ L1 :=
    fun q hq hq1 => hdisj hq1 (List.mem_cons_of_mem p hq)
  rw [List.foldl_append, List.foldl_cons]
  have hne1 : ∀ q ∈ L1, ¬(rowOf p = rowOf q ∧ colOf p = colOf q) :=
    fun q hq => pos_ne_of_ne (fun hpq => hp1 (hpq ▸ hq))
  have hne2 : ∀ q ∈ L2, ¬(rowOf p = rowOf q ∧ colOf p = colOf q) :=
    fun q hq => pos_ne_of_ne (fun hpq => hp2 (hpq ▸ hq))
  obtain ⟨hL1a, hL1b⟩ := fold_upd_other sol f L1 b (rowOf p) (colOf p) hne1
  refine ⟨?_, ?_, ?_⟩
  · intro hd0
    have hq : (updStep sol f (L1.foldl (updStep sol f) b) p) (rowOf p) (colOf p) =
        Cell.Empty (to_choices (sol.bitboard p)) := by
      rw [updStep_zero f _ hd0, writeCell_same]
    have htail : ∀ q ∈ L2, q ≠ p := fun q hq2 hqp => hp2 (hqp ▸ hq2)
    rw [fold_upd_empty_track sol f L2 hndL2 _ p _ htail hq]
    congr 1
    apply pruneByPlacement_congr
    intro q hq2
    have hne : ¬(rowOf q = rowOf p ∧ colOf q = colOf p) :=
      pos_ne_of_ne (htail q hq2)
    rw [(updStep_other sol f (L1.foldl (updStep sol f) b) p (rowOf q) (colOf q) hne).2]
    have hneL1 : ∀ q' ∈ L1, ¬(rowOf q = rowOf q' ∧ colOf q = colOf q') :=
      fun q' hq' => pos_ne_of_ne (fun hqq => hdisjL2 q hq2 (hqq ▸ hq'))
    exact (fold_upd_other sol f L1 b (rowOf q) (colOf q) hneL1).2
  · intro hd hbe
    have hbe1 : ((L1.foldl (updStep sol f) b) (rowOf p) (colOf p)).is_empty = true := by
      rw [hL1b]
      exact hbe
    obtain ⟨ch1, hch1⟩ := (is_empty_iff _).mp hbe1
    have hcell : updStep sol f (L1.foldl (updStep sol f) b) p (rowOf p) (colOf p) =
        if f then Cell.FixedValue (sol.digits p) else Cell.Value (sol.digits p) ch1 := by
      rw [updStep_nonzero f _ hd, set_eq _ _ _ _ _ _ hch1,
        if_pos (show rowOf p = rowOf p ∧ colOf p = colOf p from ⟨rfl, rfl⟩)]
    refine ⟨ch1, ?_⟩
    obtain ⟨hL2a, -⟩ :=
      fold_upd_other sol f L2 (updStep sol f (L1.foldl (updStep sol f) b) p)
        (rowOf p) (colOf p) hne2
    rw [hL2a ?_, hcell]
    rw [hcell]
    cases f <;> rfl
  · intro hd hocc
    have hocc1 : (L1.foldl (updStep sol f) b) (rowOf p) (colOf p) =
        b (rowOf p) (colOf p) := hL1a hocc
    have hocc1' : ((L1.foldl (updStep sol f) b) (rowOf p) (colOf p)).is_empty = false := by
      rw [hocc1]
      exact hocc
    have hstep : updStep sol f (L1.foldl (updStep sol f) b) p =
        L1.foldl (updStep sol f) b := by
      rw [updStep_nonzero f _ hd]
      exact set_noop _ _ _ _ _ hocc1'
    obtain ⟨hL2a, -⟩ :=
      fold_upd_other sol f L2 (updStep sol f (L1.foldl (updStep sol f) b) p)
        (rowOf p) (colOf p) hne2
    rw [hstep] at hL2a ⊢
    rw [hL2a hocc1', hocc1]

/-- C3 counterexample: the claim says a nonzero solver digit overwrites the
board cell, discarding whatever was there; but `update_from_sudoku` routes
nonzero digits through `set`, which is a no-op on occupied cells.  With the
cell (0,0) holding `FixedValue 5` and a grid whose digit at index 0 is 3
(`fixed = false`), the claim predicts `Value 3 …`, while the code leaves
`FixedValue 5` in place. -/
theorem C3_counterexample :
    update_from_sudoku
      (fun i j => if i = 0 ∧ j = 0 then Cell.FixedValue 5 else Cell.Empty (fun _ => true))
      ⟨fun p => if p = 0 then 3 else 0, fun _ => 1022⟩ false 0 0 = Cell.FixedValue 5 ∧
    ∀ ch, Cell.FixedValue 5 ≠ Cell.Value 3 ch := by
  constructor
  · decide
  · exact fun ch h => Cell.noConfusion h

/-- C3 (amended): `update_from_sudoku` overwrites a cell with
`Empty{choices from the bitmask}` whenever its grid digit is zero — modulo
the pruning inflicted by the rest of the sweep: each later visit to a
same-unit cell that is empty on the input board and carries a nonzero grid
digit executes `set` and clears that digit from the written candidates
(`pruneByPlacement` folded over the later indices).  A cell with a nonzero
grid digit becomes `FixedValue` (if `fixed`) or `Value` only when it is
currently `Empty`, and keeps its previous state untouched otherwise — the
placement goes through `set`, whose no-op on occupied cells is preserved. -/
theorem C3_update_from_sudoku (b : SudokuData) (sol : Sudoku) (f : Bool) (p : Fin 81) :
    (sol.digits p = 0 →
      (update_from_sudoku b sol f) (rowOf p) (colOf p) =
        Cell.Empty (((List.finRange 81).drop (p.val + 1)).foldl
          (pruneByPlacement sol b p) (to_choices (sol.bitboard p)))) ∧
    (sol.digits p ≠ 0 → (b (rowOf p) (colOf p)).is_empty = true →
      ∃ ch, (update_from_sudoku b sol f) (rowOf p) (colOf p) =
        if f then Cell.FixedValue (sol.digits p) else Cell.Value (sol.digits p) ch) ∧
    (sol.digits p ≠ 0 → (b (rowOf p) (colOf p)).is_empty = false →
      (update_from_sudoku b sol f) (rowOf p) (colOf p) = b (rowOf p) (colOf p)) := by
  have hlt : p.val < (List.finRange 81).length := by
    rw [List.length_finRange]
    exact p.isLt
  have hget : (List.finRange 81)[p.val] = p := by
    have h := List.get_finRange (n := 81) (i := p.val) hlt
    rw [List.get_eq_getElem] at h
    rw [h]
  have hdrop : p :: (List.finRange 81).drop (p.val + 1) =
      (List.finRange 81).drop p.val := by
    have h := List.getElem_cons_drop (List.finRange 81) p.val hlt
    rw [hget] at h
    exact h
  have horder : (List.finRange 81).take p.val ++ p :: (List.finRange 81).drop (p.val + 1) =
      List.finRange 81 := by
    rw [hdrop, List.take_append_drop]
  obtain ⟨h1, h2, h3⟩ := fold_upd_split sol f ((List.finRange 81).take p.val)
    ((List.finRange 81).drop (p.val + 1)) p
    (by rw [horder]; exact List.nodup_finRange 81) b
  rw [horder] at h1 h2 h3
  exact ⟨h1, h2, h3⟩

/-- Witness for C3 at a concrete board and grid: a nonzero digit fills an
`Empty` cell with a `Value`. -/
theorem C3_update_from_sudoku_witness :
    ((5 : Nat) ≠ 0 ∧
      ((fun (_ : Fin 9) (_ : Fin 9) => Cell.Empty (fun _ => true)) (rowOf 0) (colOf 0)).is_empty
        = true) ∧
    ∃ ch, (update_from_sudoku (fun _ _ => Cell.Empty (fun _ => true))
        ⟨fun _ => 5, fun _ => 1022⟩ false) (rowOf 0) (colOf 0) =
      if false then Cell.FixedValue 5 else Cell.Value 5 ch :=
  ⟨⟨by decide, by decide⟩,
    (C3_update_from_sudoku (fun _ _ => Cell.Empty (fun _ => true))
      ⟨fun _ => 5, fun _ => 1022⟩ false 0).2.1 (by decide) (by decide)⟩

/- Concrete evaluation of the zero-digit clause: with an all-empty board,
grid digit 5 at index 1 and bitmask 1022 (digits 1..9) everywhere, cell
(0,0) ends `Empty` with candidate 5 pruned by the later placement at the
same-row index 1. -/
set_option maxRecDepth 4000 in
example :
    (match update_from_sudoku (fun _ _ => Cell.Empty (fun _ => true))
        ⟨fun q => if q = 1 then 5 else 0, fun _ => 1022⟩ false 0 0 with
      | Cell.Empty c => (List.finRange 9).map c
      | _ => []) =
      [true, true, true, true, false, true, true, true, true] := by
  rfl

set_option maxRecDepth 4000 in
example :
    (List.finRange 9).map
      (((List.finRange 81).drop 1).foldl
        (pruneByPlacement ⟨fun q => if q = 1 then 5 else 0, fun _ => 1022⟩
          (fun _ _ => Cell.Empty (fun _ => true)) 0) (to_choices 1022)) =
      [true, true, true, true, false, true, true, true, true] := by
  rfl

/-! ### Verification recoloring (C4) -/

/-- The pointwise effect of the recoloring loop of `compare_with_solution` on
a single cell: `Value` and `AnimatedValue` cells are reclassified against the
derived solution; every other state — including `Error` — falls into the
wildcard arm and is left untouched. -/
def recolorCell (sol : Sudoku) (p : Fin 81) : Cell → Cell
  | .Value v _ =>
    if v = sol.digits p then
      .AnimatedValue v (to_choices (sol.bitboard p)) 100 "fade-green"
    else .Error v (to_choices (sol.bitboard p))
  | .AnimatedValue v _ _ _ =>
    if v = sol.digits p then
      .AnimatedValue v (to_choices (sol.bitboard p)) 100 "fade-green"
    else .Error v (to_choices (sol.bitboard p))
  | x => x

lemma recolorStep_at (sol : Sudoku) (b : SudokuData) (p : Fin 81) (i j : Fin 9) :
    recolorStep sol b p i j =
      if i = rowOf p ∧ j = colOf p then recolorCell sol p (b (rowOf p) (colOf p))
      else b i j := by
  cases hb : b (rowOf p) (colOf p) with
  | Value v ch =>
    simp only [recolorStep, hb, recolorCell]
    by_cases hv : v = sol.digits p
    · rw [if_pos hv, if_pos hv]
      by_cases hij : i = rowOf p ∧ j = colOf p
      · obtain ⟨rfl, rfl⟩ := hij
        rw [writeCell_same,
          if_pos (show rowOf p = rowOf p ∧ colOf p = colOf p from ⟨rfl, rfl⟩)]
      · rw [writeCell_other _ _ _ _ _ _ hij, if_neg hij]
    · rw [if_neg hv, if_neg hv]
      by_cases hij : i = rowOf p ∧ j = colOf p
      · obtain ⟨rfl, rfl⟩ := hij
        rw [writeCell_same,
          if_pos (show rowOf p = rowOf p ∧ colOf p = colOf p from ⟨rfl, rfl⟩)]
      · rw [writeCell_other _ _ _ _ _ _ hij, if_neg hij]
  | AnimatedValue v ch d a =>
    simp only [recolorStep, hb, recolorCell]
    by_cases hv : v = sol.digits p
    · rw [if_pos hv, if_pos hv]
      by_cases hij : i = rowOf p ∧ j = colOf p
      · obtain ⟨rfl, rfl⟩ := hij
        rw [writeCell_same,
          if_pos (show rowOf p = rowOf p ∧ colOf p = colOf p from ⟨rfl, rfl⟩)]
      · rw [writeCell_other _ _ _ _ _ _ hij, if_neg hij]
    · rw [if_neg hv, if_neg hv]
      by_cases hij : i = rowOf p ∧ j = colOf p
      · obtain ⟨rfl, rfl⟩ := hij
        rw [writeCell_same,
          if_pos (show rowOf p = rowOf p ∧ colOf p = colOf p from ⟨rfl, rfl⟩)]
      · rw [writeCell_other _ _ _ _ _ _ hij, if_neg hij]
  | Empty ch =>
    simp only [recolorStep, hb, recolorCell]
    by_cases hij : i = rowOf p ∧ j = colOf p
    · obtain ⟨rfl, rfl⟩ := hij
      rw [if_pos (show rowOf p = rowOf p ∧ colOf p = colOf p from ⟨rfl, rfl⟩), hb]
    · rw [if_neg hij]
  | FixedValue v =>
    simp only [recolorStep, hb, recolorCell]
    by_cases hij : i = rowOf p ∧ j = colOf p
    · obtain ⟨rfl, rfl⟩ := hij
      rw [if_pos (show rowOf p = rowOf p ∧ colOf p = colOf p from ⟨rfl, rfl⟩), hb]
    · rw [if_neg hij]
  | Error v ch =>
    simp only [recolorStep, hb, recolorCell]
    by_cases hij : i = rowOf p ∧ j = colOf p
    · obtain ⟨rfl, rfl⟩ := hij
      rw [if_pos (show rowOf p = rowOf p ∧ colOf p = colOf p from ⟨rfl, rfl⟩), hb]
    · rw [if_neg hij]

lemma fold_recolor_at (sol : Sudoku) :
    ∀ (L : List (Fin 81)), L.Nodup → ∀ (b : SudokuData) (i j : Fin 9),
      (L.foldl (recolorStep sol) b) i j =
        if toIdx i j ∈ L then recolorCell sol (toIdx i j) (b i j) else b i j := by
  intro L
  induction L with
  | nil =>
    intro _ b i j
    simp
  | cons p L ih =>
    intro hnd b i j
    obtain ⟨hp, hndL⟩ := List.nodup_cons.mp hnd
    rw [List.foldl_cons, ih hndL, recolorStep_at]
    by_cases hq : toIdx i j = p
    · have hri : i = rowOf p := by rw [← hq, rowOf_toIdx]
      have hcj : j = colOf p := by rw [← hq, colOf_toIdx]
      have hmemL : toIdx i j ∉ L := by rw [hq]; exact hp
      rw [if_neg hmemL, if_pos ⟨hri, hcj⟩,
        if_pos (List.mem_cons.mpr (Or.inl hq)), ← hq, rowOf_toIdx, colOf_toIdx]
    · have hne : ¬(i = rowOf p ∧ j = colOf p) := by
        rintro ⟨rfl, rfl⟩
        exact hq (toIdx_rowOf_colOf p)
      rw [if_neg hne]
      by_cases hmem : toIdx i j ∈ L
      · rw [if_pos hmem, if_pos (List.mem_cons_of_mem p hmem)]
      · rw [if_neg hmem, if_neg ?_]
        rintro hm
        rcases List.mem_cons.mp hm with h | h
        · exact hq h
        · exact hmem h

def Cell.isFixed : Cell → Bool
  | .FixedValue _ => true
  | _ => false

/-- The digit contributed by a cell to the fixed-clues-only snapshot. -/
def fixedDigit : Cell → Nat
  | .FixedValue v => v
  | _ => 0

lemma fixedStep_digits (b : SudokuData) (s : Sudoku) (p q : Fin 81) :
    (fixedStep b s p).digits q =
      if q = p ∧ (b (rowOf p) (colOf p)).isFixed = true then
        fixedDigit (b (rowOf p) (colOf p))
      else s.digits q := by
  by_cases hq : q = p
  · subst hq
    cases hb : b (rowOf q) (colOf q) <;>
      simp [fixedStep, Sudoku.place, hb, Cell.isFixed, fixedDigit]
  · cases hb : b (rowOf p) (colOf p) <;>
      simp [fixedStep, Sudoku.place, hb, Cell.isFixed, fixedDigit, hq]

lemma foldFixed_digits (b : SudokuData) :
    ∀ (L : List (Fin 81)) (s : Sudoku) (q : Fin 81),
      ((L.foldl (fixedStep b) s).digits q) =
        if q ∈ L ∧ (b (rowOf q) (colOf q)).isFixed = true then
          fixedDigit (b (rowOf q) (colOf q))
        else s.digits q := by
  intro L
  induction L with
  | nil => simp
  | cons p L ih =>
    intro s q
    rw [List.foldl_cons, ih, fixedStep_digits]
    by_cases hmem : q ∈ L ∧ (b (rowOf q) (colOf q)).isFixed = true
    · rw [if_pos hmem, if_pos ⟨List.mem_cons_of_mem p hmem.1, hmem.2⟩]
    · by_cases hq : q = p
      · subst hq
        by_cases hocc : (b (rowOf q) (colOf q)).isFixed = true
        · rw [if_neg hmem, if_pos ⟨rfl, hocc⟩, if_pos ⟨List.mem_cons_self q L, hocc⟩]
        · rw [if_neg hmem, if_neg (fun h => hocc h.2), if_neg (fun h => hocc h.2)]
      · have hnot : ¬(q ∈ p :: L ∧ (b (rowOf q) (colOf q)).isFixed = true) := by
          rintro ⟨hmem2, hocc⟩
          rcases List.mem_cons.mp hmem2 with h | h
          · exact hq h
          · exact hmem ⟨h, hocc⟩
        rw [if_neg hmem, if_neg (fun h => hq h.1), if_neg hnot]

/-- The fixed-clues-only snapshot: each cell contributes its digit exactly
when it is a `FixedValue`. -/
lemma fixed_sudoku_digits (b : SudokuData) (q : Fin 81) :
    (b.fixed_sudoku).digits q = fixedDigit (b (rowOf q) (colOf q)) := by
  unfold SudokuData.fixed_sudoku
  rw [foldFixed_digits]
  by_cases hocc : (b (rowOf q) (colOf q)).isFixed = true
  · rw [if_pos ⟨List.mem_finRange q, hocc⟩]
  · rw [if_neg (fun h => hocc h.2)]
    cases hb : b (rowOf q) (colOf q) <;> simp_all [Cell.isFixed, fixedDigit] <;> rfl

/-- A complete, valid solution grid (the shifted-rows pattern), used as the
solver's answer in the C4 counterexample; its cell (0,0) holds digit 1. -/
def solGrid : Sudoku :=
  ⟨fun p => (3 * (p.val / 9) + p.val / 27 + p.val % 9) % 9 + 1, fun _ => 0⟩

/-- A board whose only placed cell is an `Error` at (0,0) holding digit 1 —
the digit the derived solution also holds there. -/
def bErr : SudokuData :=
  fun i j => if i = 0 ∧ j = 0 then Cell.Error 1 (fun _ => false) else Cell.Empty (fun _ => true)

/-- C4 counterexample: the claim says the verify recoloring reclassifies every
placed non-fixed cell — `Value`, `AnimatedValue`, or `Error` — as a
non-error cell when its digit matches the derived solution.  On `bErr` the
`Error` cell (0,0) holds 1 and the derived solution's digit there is 1, yet
`compare_with_solution` leaves the cell in the `Error` state: its match only
reclassifies `Value` and `AnimatedValue` cells. -/
theorem C4_counterexample :
    (compare_with_solution (fun _ => some solGrid) bErr).map (fun b' => b' 0 0) =
      some (Cell.Error 1 (fun _ => false)) ∧
    solGrid.digits (toIdx 0 0) = 1 := by
  constructor
  · decide
  · decide

/-- C4 (amended): on a successful derivation, the verify/fallback routine
solves the fixed-clues-only snapshot (`fixed_sudoku` keeps exactly the
`FixedValue` digits) and then reclassifies every `Value` or `AnimatedValue`
cell — matching digits become a green-fading `AnimatedValue`, conflicting
digits become `Error` — while `Error`, `Empty` and `FixedValue` cells are
left unchanged (an `Error` cell is not re-examined even if it now matches). -/
theorem C4_verify_recolor (solve : Sudoku → Option Sudoku) (b : SudokuData)
    (sol : Sudoku) (hsolve : solve b.fixed_sudoku = some sol) :
    ∃ b', compare_with_solution solve b = some b' ∧
      (∀ q : Fin 81, (b.fixed_sudoku).digits q = fixedDigit (b (rowOf q) (colOf q))) ∧
      ∀ i j : Fin 9, b' i j = recolorCell sol (toIdx i j) (b i j) := by
  refine ⟨(List.finRange 81).foldl (recolorStep sol) b, ?_, fixed_sudoku_digits b, ?_⟩
  · unfold compare_with_solution
    rw [hsolve]
    rfl
  · intro i j
    rw [fold_recolor_at sol (List.finRange 81) (List.nodup_finRange 81) b i j,
      if_pos (List.mem_finRange _)]

/-- Witness for C4 with the constant solver answer `solGrid` on `bErr`. -/
theorem C4_verify_recolor_witness :
    ((fun _ => some solGrid) bErr.fixed_sudoku = some solGrid) ∧
    ∃ b', compare_with_solution (fun _ => some solGrid) bErr = some b' ∧
      (∀ q : Fin 81, (bErr.fixed_sudoku).digits q = fixedDigit (bErr (rowOf q) (colOf q))) ∧
      ∀ i j : Fin 9, b' i j = recolorCell solGrid (toIdx i j) (bErr i j) :=
  ⟨rfl, C4_verify_recolor (fun _ => some solGrid) bErr solGrid rfl⟩

/-! ### Animated application (C9) -/

lemma set_fade_of_empty (b : SudokuData) (r c : Fin 9) (v : Nat) (d : Int)
    (ch : Fin 9 → Bool) (hb : b r c = .Empty ch) :
    b.set_fade r c v d = writeCell b r c (.AnimatedValue v (fun _ => false) d "fade-in") := by
  unfold SudokuData.set_fade
  rw [hb]

lemma set_fade_noop (b : SudokuData) (r c : Fin 9) (v : Nat) (d : Int)
    (hb : (b r c).is_empty = false) : b.set_fade r c v d = b := by
  unfold SudokuData.set_fade
  cases h : b r c <;> simp_all [Cell.is_empty]

lemma animStep_board (sol : Sudoku) (st : SudokuData × Int) (p : Fin 81) :
    (animStep sol st p).1 =
      if sol.digits p = 0 then
        writeCell st.1 (rowOf p) (colOf p) (.Empty (to_choices (sol.bitboard p)))
      else SudokuData.set_fade st.1 (rowOf p) (colOf p) (sol.digits p) st.2 := rfl

lemma animStep_duration (sol : Sudoku) (st : SudokuData × Int) (p : Fin 81) :
    (animStep sol st p).2 = st.2 + 5 := rfl

lemma animStep_other (sol : Sudoku) (st : SudokuData × Int) (p : Fin 81) (i j : Fin 9)
    (hne : ¬(i = rowOf p ∧ j = colOf p)) :
    (animStep sol st p).1 i j = st.1 i j := by
  rw [animStep_board]
  by_cases hd : sol.digits p = 0
  · rw [if_pos hd, writeCell_other _ _ _ _ _ _ hne]
  · rw [if_neg hd]
    by_cases hbe : (st.1 (rowOf p) (colOf p)).is_empty = true
    · obtain ⟨ch, hch⟩ := (is_empty_iff _).mp hbe
      rw [set_fade_of_empty _ _ _ _ _ _ hch, writeCell_other _ _ _ _ _ _ hne]
    · rw [set_fade_noop _ _ _ _ _ (by simpa using hbe)]

lemma anim_fold_other (sol : Sudoku) :
    ∀ (L : List (Fin 81)) (st : SudokuData × Int) (i j : Fin 9),
      (∀ p ∈ L, ¬(i = rowOf p ∧ j = colOf p)) →
      (L.foldl (animStep sol) st).1 i j = st.1 i j := by
  intro L
  induction L with
  | nil => exact fun st i j _ => rfl
  | cons p L ih =>
    intro st i j hne
    rw [List.foldl_cons,
      ih (animStep sol st p) i j (fun q hq => hne q (List.mem_cons_of_mem p hq)),
      animStep_other sol st p i j (hne p (List.mem_cons_self p L))]

lemma anim_fold_duration (sol : Sudoku) :
    ∀ (L : List (Fin 81)) (st : SudokuData × Int),
      (L.foldl (animStep sol) st).2 = st.2 + 5 * L.length := by
  intro L
  induction L with
  | nil => simp
  | cons p L ih =>
    intro st
    rw [List.foldl_cons, ih (animStep sol st p), animStep_duration, List.length_cons]
    push_cast
    ring

/-- The fate of a cell visited at position `|L1|` of the animated application:
blanks are written immediately; a nonzero digit fades in on an `Empty` cell
with delay `st.2 + 5 * |L1|` — the counter advances by 5 for every visited
position, blank or not — and an occupied cell is left unchanged. -/
lemma anim_fold_split (sol : Sudoku) (L1 L2 : List (Fin 81)) (p : Fin 81)
    (hp1 : p ∉ L1) (hp2 : p ∉ L2) (st : SudokuData × Int) :
    (sol.digits p = 0 →
      ((L1 ++ p :: L2).foldl (animStep sol) st).1 (rowOf p) (colOf p) =
        Cell.Empty (to_choices (sol.bitboard p))) ∧
    (sol.digits p ≠ 0 → (st.1 (rowOf p) (colOf p)).is_empty = true →
      ((L1 ++ p :: L2).foldl (animStep sol) st).1 (rowOf p) (colOf p) =
        Cell.AnimatedValue (sol.digits p) (fun _ => false)
          (st.2 + 5 * L1.length) "fade-in") ∧
    (sol.digits p ≠ 0 → (st.1 (rowOf p) (colOf p)).is_empty = false →
      ((L1 ++ p :: L2).foldl (animStep sol) st).1 (rowOf p) (colOf p) =
        st.1 (rowOf p) (colOf p)) := by
  have hne1 : ∀ q ∈ L1, ¬(rowOf p = rowOf q ∧ colOf p = colOf q) := by
    intro q hq hctr
    apply hp1
    have hpq : p = q := by
      rw [← toIdx_rowOf_colOf p, ← toIdx_rowOf_colOf q, hctr.1, hctr.2]
    rw [hpq]
    exact hq
  have hne2 : ∀ q ∈ L2, ¬(rowOf p = rowOf q ∧ colOf p = colOf q) := by
    intro q hq hctr
    apply hp2
    have hpq : p = q := by
      rw [← toIdx_rowOf_colOf p, ← toIdx_rowOf_colOf q, hctr.1, hctr.2]
    rw [hpq]
    exact hq
  rw [List.foldl_append, List.foldl_cons]
  have hmidb : (L1.foldl (animStep sol) st).1 (rowOf p) (colOf p) =
      st.1 (rowOf p) (colOf p) := anim_fold_other sol L1 st _ _ hne1
  have hmidd : (L1.foldl (animStep sol) st).2 = st.2 + 5 * L1.length :=
    anim_fold_duration sol L1 st
  refine ⟨?_, ?_, ?_⟩
  · intro hd0
    rw [anim_fold_other sol L2 _ _ _ hne2, animStep_board, if_pos hd0, writeCell_same]
  · intro hd hbe
    have hbe1 : ((L1.foldl (animStep sol) st).1 (rowOf p) (colOf p)).is_empty = true := by
      rw [hmidb]
      exact hbe
    obtain ⟨ch1, hch1⟩ := (is_empty_iff _).mp hbe1
    rw [anim_fold_other sol L2 _ _ _ hne2, animStep_board, if_neg hd,
      set_fade_of_empty _ _ _ _ _ _ hch1, writeCell_same, hmidd]
  · intro hd hocc
    have hocc1 : ((L1.foldl (animStep sol) st).1 (rowOf p) (colOf p)).is_empty = false := by
      rw [hmidb]
      exact hocc
    rw [anim_fold_other sol L2 _ _ _ hne2, animStep_board, if_neg hd,
      set_fade_noop _ _ _ _ _ hocc1, hmidb]

/-- C9 counterexample: the claim says blank (zero-digit) results do not
contribute to the delay increment, so with visit order `[0, 1]` — position 0
blank, position 1 holding digit 5 — the first revealed non-blank cell should
get the base delay 0.  The code increments the counter on every visited
position, so cell 1 is revealed with delay 5, not 0. -/
theorem C9_counterexample :
    update_from_sudoku_animated (fun _ _ => Cell.Empty (fun _ => true))
        ⟨fun p => if p = 1 then 5 else 0, fun _ => 1022⟩ [(0 : Fin 81), 1]
        (rowOf 1) (colOf 1) =
      Cell.AnimatedValue 5 (fun _ => false) 5 "fade-in" ∧
    Cell.AnimatedValue 5 (fun _ => false) 5 "fade-in" ≠
      Cell.AnimatedValue 5 (fun _ => false) 0 "fade-in" := by
  constructor
  · decide
  · decide

/-- C9 (amended): for any visit order without repeats, the cell visited at
position `k` is applied immediately when its solver digit is zero, and a
nonzero digit fades in on a currently-`Empty` cell with delay `5 * k` — the
delay step is applied for every visited position, blank results included —
while an occupied cell is left unchanged (with the counter still advancing). -/
theorem C9_animated_delay (b : SudokuData) (sol : Sudoku) (order : List (Fin 81))
    (hnd : order.Nodup) (k : Nat) (hk : k < order.length) :
    (sol.digits (order.get ⟨k, hk⟩) = 0 →
      update_from_sudoku_animated b sol order
          (rowOf (order.get ⟨k, hk⟩)) (colOf (order.get ⟨k, hk⟩)) =
        Cell.Empty (to_choices (sol.bitboard (order.get ⟨k, hk⟩)))) ∧
    (sol.digits (order.get ⟨k, hk⟩) ≠ 0 →
      (b (rowOf (order.get ⟨k, hk⟩)) (colOf (order.get ⟨k, hk⟩))).is_empty = true →
      update_from_sudoku_animated b sol order
          (rowOf (order.get ⟨k, hk⟩)) (colOf (order.get ⟨k, hk⟩)) =
        Cell.AnimatedValue (sol.digits (order.get ⟨k, hk⟩)) (fun _ => false)
          (5 * (k : Int)) "fade-in") ∧
    (sol.digits (order.get ⟨k, hk⟩) ≠ 0 →
      (b (rowOf (order.get ⟨k, hk⟩)) (colOf (order.get ⟨k, hk⟩))).is_empty = false →
      update_from_sudoku_animated b sol order
          (rowOf (order.get ⟨k, hk⟩)) (colOf (order.get ⟨k, hk⟩)) =
        b (rowOf (order.get ⟨k, hk⟩)) (colOf (order.get ⟨k, hk⟩))) := by
  have horder : order.take k ++ order.get ⟨k, hk⟩ :: order.drop (k + 1) = order := by
    rw [List.get_eq_getElem, List.getElem_cons_drop, List.take_append_drop]
  have hnd' : (order.take k ++ order.get ⟨k, hk⟩ :: order.drop (k + 1)).Nodup := by
    rw [horder]
    exact hnd
  rw [List.nodup_append] at hnd'
  obtain ⟨-, hnd2, hdisj⟩ := hnd'
  have hp1 : order.get ⟨k, hk⟩ ∉ order.take k :=
    fun hmem => hdisj hmem (List.mem_cons_self _ _)
  have hp2 : order.get ⟨k, hk⟩ ∉ order.drop (k + 1) := (List.nodup_cons.mp hnd2).1
  have hsplit := anim_fold_split sol (order.take k) (order.drop (k + 1))
    (order.get ⟨k, hk⟩) hp1 hp2 (b, 0)
  rw [horder] at hsplit
  have hlen : ((order.take k).length : Int) = (k : Int) := by
    rw [List.length_take]
    congr 1
    omega
  have hdelay : (0 : Int) + 5 * ((order.take k).length : Int) = 5 * (k : Int) := by
    rw [hlen]
    ring
  unfold update_from_sudoku_animated
  refine ⟨hsplit.1, ?_, hsplit.2.2⟩
  intro hd hbe
  rw [hsplit.2.1 hd hbe]
  rw [show ((b, (0 : Int)).2 + 5 * ((order.take k).length : Int)) = 5 * (k : Int) from hdelay]

/-- Witness for C9: with order `[0, 1]` and digit 5 at position 1 on the empty
board, the cell at position 1 fades in with delay `5 * 1`. -/
theorem C9_animated_delay_witness :
    [(0 : Fin 81), (1 : Fin 81)].Nodup ∧
    update_from_sudoku_animated (fun _ _ => Cell.Empty (fun _ => true))
        ⟨fun p => if p = 1 then 5 else 0, fun _ => 1022⟩ [(0 : Fin 81), 1]
        (rowOf ([(0 : Fin 81), (1 : Fin 81)].get ⟨1, by decide⟩))
        (colOf ([(0 : Fin 81), (1 : Fin 81)].get ⟨1, by decide⟩)) =
      Cell.AnimatedValue
        ((⟨fun p => if p = 1 then 5 else 0, fun _ => 1022⟩ : Sudoku).digits
          ([(0 : Fin 81), (1 : Fin 81)].get ⟨1, by decide⟩))
        (fun _ => false) (5 * ((1 : Nat) : Int)) "fade-in" :=
  ⟨by decide,
    (C9_animated_delay (fun _ _ => Cell.Empty (fun _ => true))
        ⟨fun p => if p = 1 then 5 else 0, fun _ => 1022⟩ [(0 : Fin 81), 1]
        (by decide) 1 (by decide)).2.1 (by decide) (by decide)⟩

/-! ### Puzzle text parsing (C5) -/

lemma cellOfChar_isSome (c : Char) :
    (cellOfChar c).isSome = true ↔ (c = '.' ∨ ('1' ≤ c ∧ c ≤ '9')) := by
  by_cases h1 : c = '.'
  · simp [cellOfChar, h1]
  · by_cases h2 : '1' ≤ c ∧ c ≤ '9' <;> simp [cellOfChar, h1, h2]

lemma parseCells_isSome :
    ∀ (n : Nat) (cs : List Char),
      (parseCells n cs).isSome = true ↔
        (n ≤ cs.length ∧ ∀ c ∈ cs.take n, (cellOfChar c).isSome = true) := by
  intro n
  induction n with
  | zero =>
    intro cs
    simp [parseCells]
  | succ n ih =>
    intro cs
    cases cs with
    | nil => simp [parseCells]
    | cons c cs =>
      cases hc : cellOfChar c with
      | none =>
        have hL : parseCells (n + 1) (c :: cs) = none := by
          simp [parseCells, hc]
        rw [hL]
        simp only [Option.isSome_none, Bool.false_eq_true, false_iff]
        rintro ⟨-, hall⟩
        have hmem := hall c (by rw [List.take_succ_cons]; exact List.mem_cons_self c _)
        rw [hc] at hmem
        simp at hmem
      | some cell =>
        cases hp : parseCells n cs with
        | none =>
          have hL : parseCells (n + 1) (c :: cs) = none := by
            simp [parseCells, hc, hp]
          rw [hL]
          simp only [Option.isSome_none, Bool.false_eq_true, false_iff]
          rintro ⟨hlen, hall⟩
          have hihs : (parseCells n cs).isSome = true := by
            rw [ih cs]
            refine ⟨by simp at hlen; omega, ?_⟩
            intro c' hc'
            exact hall c' (by rw [List.take_succ_cons]; exact List.mem_cons_of_mem c hc')
          rw [hp] at hihs
          simp at hihs
        | some cells =>
          have hL : parseCells (n + 1) (c :: cs) = some (cell :: cells) := by
            simp [parseCells, hc, hp]
          rw [hL]
          simp only [Option.isSome_some, true_iff]
          have hihs := (ih cs).mp (by rw [hp]; rfl)
          refine ⟨by simp; omega, ?_⟩
          intro c' hc'
          rw [List.take_succ_cons] at hc'
          rcases List.mem_cons.mp hc' with rfl | h
          · rw [hc]
            rfl
          · exact hihs.2 c' h

lemma from_str_isSome (s : List Char) :
    (from_str s).isSome = true ↔
      (81 ≤ s.length ∧ ∀ c ∈ s.take 81, c = '.' ∨ ('1' ≤ c ∧ c ≤ '9')) := by
  unfold from_str
  rw [Option.isSome_map', parseCells_isSome]
  constructor
  · rintro ⟨h1, h2⟩
    exact ⟨h1, fun c hc => (cellOfChar_isSome c).mp (h2 c hc)⟩
  · rintro ⟨h1, h2⟩
    exact ⟨h1, fun c hc => (cellOfChar_isSome c).mpr (h2 c hc)⟩

lemma is_valid_game_str_iff (s : List Char) :
    is_valid_game_str s = true ↔
      (s.length = 81 ∧ ∀ c ∈ s, c.isDigit = true ∨ c = '.') := by
  unfold is_valid_game_str
  simp [List.all_eq_true, Bool.or_eq_true, beq_iff_eq]

/-- C5 counterexample: the claim says a string is accepted iff it is exactly
81 characters over `{'1'-'9','.'}`.  But `SudokuData::from_str` never checks
the length: a string of 82 dots parses successfully (extra characters are
ignored), and the URL guard `is_valid_game_str` accepts an 81-character
string of `'0'`s even though `'0'` is outside the claimed alphabet. -/
theorem C5_counterexample :
    (from_str (List.replicate 82 '.')).isSome = true ∧
    (List.replicate 82 '.').length ≠ 81 ∧
    is_valid_game_str (List.replicate 81 '0') = true ∧
    ¬('0' = '.' ∨ ('1' ≤ '0' ∧ '0' ≤ '9')) := by
  refine ⟨by decide, by decide, by decide, by decide⟩

/-- C5 (amended): `SudokuData::from_str` accepts exactly the strings of
length at least 81 whose first 81 characters lie in `{'1'-'9','.'}` —
characters beyond the 81st are ignored, so over-length strings are not
rejected; `is_valid_game_str` accepts exactly the 81-character strings over
`{'0'-'9','.'}` — `'0'` included. -/
theorem C5_puzzle_parsing (s : List Char) :
    ((from_str s).isSome = true ↔
      (81 ≤ s.length ∧ ∀ c ∈ s.take 81, c = '.' ∨ ('1' ≤ c ∧ c ≤ '9'))) ∧
    (is_valid_game_str s = true ↔
      (s.length = 81 ∧ ∀ c ∈ s, c.isDigit = true ∨ c = '.')) :=
  ⟨from_str_isSome s, is_valid_game_str_iff s⟩

/-! ### Board display (C10) -/

/-- The single character a well-valued cell prints. -/
def displayChar : Cell → Char
  | .Empty _ => '.'
  | x => Nat.digitChar (cellValue x)

lemma toDigits_single (v : Nat) (h1 : 1 ≤ v) (h9 : v ≤ 9) :
    Nat.toDigits 10 v = [Nat.digitChar v] := by
  interval_cases v <;> decide

lemma cellDisplay_single (x : Cell)
    (h : x.is_empty = true ∨ (1 ≤ cellValue x ∧ cellValue x ≤ 9)) :
    cellDisplay x = [displayChar x] := by
  cases x with
  | Empty ch => rfl
  | Value v ch =>
    rcases h with h | h
    · simp [Cell.is_empty] at h
    · exact toDigits_single v h.1 h.2
  | FixedValue v =>
    rcases h with h | h
    · simp [Cell.is_empty] at h
    · exact toDigits_single v h.1 h.2
  | AnimatedValue v ch d a =>
    rcases h with h | h
    · simp [Cell.is_empty] at h
    · exact toDigits_single v h.1 h.2
  | Error v ch =>
    rcases h with h | h
    · simp [Cell.is_empty] at h
    · exact toDigits_single v h.1 h.2

lemma concatMapList_congr {α β : Type} (f g : α → List β) :
    ∀ L : List α, (∀ a ∈ L, f a = g a) → concatMapList f L = concatMapList g L := by
  intro L
  induction L with
  | nil => intro _; rfl
  | cons a L ih =>
    intro h
    show f a ++ concatMapList f L = g a ++ concatMapList g L
    rw [h a (List.mem_cons_self a L), ih (fun a' ha' => h a' (List.mem_cons_of_mem a ha'))]

lemma concatMapList_map {α β : Type} (f : α → List β) (g : α → β) :
    ∀ L : List α, (∀ a ∈ L, f a = [g a]) → concatMapList f L = L.map g := by
  intro L
  induction L with
  | nil => intro _; rfl
  | cons a L ih =>
    intro h
    show f a ++ concatMapList f L = g a :: L.map g
    rw [h a (List.mem_cons_self a L), ih (fun a' ha' => h a' (List.mem_cons_of_mem a ha'))]
    rfl

lemma concatMapList_length {α β : Type} (f : α → List β) (n : Nat) :
    ∀ L : List α, (∀ a ∈ L, (f a).length = n) →
      (concatMapList f L).length = n * L.length := by
  intro L
  induction L with
  | nil => intro _; simp [concatMapList]
  | cons a L ih =>
    intro h
    show (f a ++ concatMapList f L).length = n * (a :: L).length
    rw [List.length_append, h a (List.mem_cons_self a L),
      ih (fun a' ha' => h a' (List.mem_cons_of_mem a ha')), List.length_cons]
    ring

/-- C10: whenever every non-`Empty` cell holds a value in `1..=9`, the board's
display string is each cell's single character in row-major order — `'.'` for
`Empty`, the digit character otherwise — and is exactly 81 characters long. -/
theorem C10_display_string (b : SudokuData)
    (h : ∀ i j : Fin 9,
      (b i j).is_empty = true ∨ (1 ≤ cellValue (b i j) ∧ cellValue (b i j) ≤ 9)) :
    displayString b =
      concatMapList (fun i => (List.finRange 9).map (fun j => displayChar (b i j)))
        (List.finRange 9) ∧
    (displayString b).length = 81 := by
  have h2 : displayString b =
      concatMapList (fun i => (List.finRange 9).map (fun j => displayChar (b i j)))
        (List.finRange 9) := by
    unfold displayString
    apply concatMapList_congr
    intro i _
    exact concatMapList_map _ _ (List.finRange 9) (fun j _ => cellDisplay_single _ (h i j))
  refine ⟨h2, ?_⟩
  rw [h2, concatMapList_length _ 9 _ (fun i _ => by simp)]
  simp

/-- Witness for C10 on the all-empty board: 81 dots. -/
theorem C10_display_string_witness :
    (∀ i j : Fin 9,
      (((fun _ _ => Cell.Empty (fun _ => true)) : SudokuData) i j).is_empty = true ∨
        (1 ≤ cellValue (((fun _ _ => Cell.Empty (fun _ => true)) : SudokuData) i j) ∧
          cellValue (((fun _ _ => Cell.Empty (fun _ => true)) : SudokuData) i j) ≤ 9)) ∧
    (displayString (fun _ _ => Cell.Empty (fun _ => true)) =
      concatMapList
        (fun i => (List.finRange 9).map
          (fun j => displayChar (((fun _ _ => Cell.Empty (fun _ => true)) : SudokuData) i j)))
        (List.finRange 9) ∧
    (displayString (fun _ _ => Cell.Empty (fun _ => true))).length = 81) :=
  ⟨fun _ _ => Or.inl rfl,
    C10_display_string (fun _ _ => Cell.Empty (fun _ => true)) (fun _ _ => Or.inl rfl)⟩
